import Mathlib

/-!
Verification development for the ng-packagr incremental-build core: the
dependency graph and cache-invalidation engine
(src/file-system/file-watcher, function invalidateEntryPointsAndCacheOnFileChange)
and the caching compiler host (src/lib/ts/cache-compiler-host.ts).

The TypeScript code is embedded shallowly: JS strings are Lean Strings,
JS Maps and Sets are association lists and duplicate-free lists preserving
insertion order, and the object graph (nodes referencing each other) is
represented by a list of node records keyed by their unique url, with
object identity replaced by url identity. Mutation is explicit state
passing. An event trace instruments the invalidation pass so that ordering
properties of its side effects can be stated.
-/

namespace NgPackagr

/-! ## JS string primitives -/

/-- Model of JS String.prototype.endsWith. -/
def jsEndsWith (s suffix : String) : Bool := suffix.data.isSuffixOf s.data

/-- Model of JS String.prototype.startsWith. -/
def jsStartsWith (s pre : String) : Bool := pre.data.isPrefixOf s.data

/-- Model of JS String.prototype.includes (substring containment). -/
def jsIncludes (s sub : String) : Bool := decide (List.IsInfix sub.data s.data)

/-- Modelled from the spec: ensureUnixPath (src/lib/utils/path.ts is not in
the sources) canonicalizes a path to forward-slash form. -/
def ensureUnixPath (s : String) : String :=
  ⟨s.data.map (fun c => if c = '\\' then '/' else c)⟩

/-! ## File urls (modelled from the spec: src/lib/ng-package/nodes.ts is not
in the sources; identifiers are URL-shaped strings with a file protocol). -/

/-- Modelled from the spec: fileUrl turns a file path into its canonical
node identifier by prepending the file protocol. -/
def fileUrl (path : String) : String := "file://" ++ path

/-- Modelled from the spec: fileUrlPath recovers the file path from a
file-protocol url, and is undefined on other urls. -/
def fileUrlPath (url : String) : Option String :=
  if "file://".data.isPrefixOf url.data then some ⟨url.data.drop 7⟩ else none

/-! ## Content cache (FileCache; modelled from the spec section 4.1:
src/lib/file-system/file-cache.ts is not in the sources). An entry has
tri-state fields, none meaning JS undefined. -/

/-- Content cache entry: exists flag, raw content and parsed-unit handle,
each possibly still unpopulated (JS undefined is Option.none). The parsed
source file object is opaque and modelled by a String handle. -/
structure CacheEntry where
  exists? : Option Bool := none
  content : Option String := none
  sourceFile : Option String := none
deriving Repr, DecidableEq, Inhabited

/-- Content cache: a JS Map from file name to entry, as an association list
in insertion order. -/
abbrev FileCache := List (String × CacheEntry)

/-- Generic JS Map.prototype.set: updates the value in place if the key is
present (keeping its position), otherwise appends the new pair. -/
def mapSet {α : Type} (m : List (String × α)) (k : String) (v : α) : List (String × α) :=
  if m.any (fun p => p.1 == k) then m.map (fun p => if p.1 == k then (k, v) else p)
  else m ++ [(k, v)]

/-- Generic JS Map.prototype.get. -/
def mapGet {α : Type} (m : List (String × α)) (k : String) : Option α :=
  (m.find? (fun p => p.1 == k)).map (fun p => p.2)

/-- Modelled from the spec: FileCache.delete removes the entry, a no-op if
absent (JS Map.prototype.delete). -/
def FileCache.delete (c : FileCache) (k : String) : FileCache :=
  c.filter (fun p => p.1 != k)

/-- Modelled from the spec: FileCache.getOrCreate returns the existing
entry, or inserts and returns a fresh empty entry. -/
def FileCache.getOrCreate (c : FileCache) (k : String) : CacheEntry × FileCache :=
  match c.find? (fun p => p.1 == k) with
  | some p => (p.2, c)
  | none => ({}, c ++ [(k, ({} : CacheEntry))])

/-! ## Dependency graph nodes (modelled from the spec sections 3 and 4.3:
src/lib/graph/node.ts and build-graph.ts are not in the sources). A node
object is a record; the graph is the list of node records in insertion
order, node object identity being url identity (the graph never holds two
nodes with one url). In the source, node.dependsOn(dep) adds dep to
node.dependents and node to dep.dependees. -/

/-- Modelled from the spec: the PENDING state written to invalidated entry
points; only its identity matters here. -/
def STATE_PENDING : String := "pending"

/-- Graph node: url identity, entry-point role flag, orchestrator state,
the two edge indices (urls, insertion order, duplicate-free), and for entry
points the private analyses sources cache. The source keeps the per-target
caches in an EntryPointNode cache record; the stylesheet processor handle
is modelled separately as a function parameter of the engine. -/
structure Node where
  url : String
  entryPoint : Bool := false
  state : String := ""
  dependents : List String := []
  dependees : List String := []
  analysesSourcesFileCache : FileCache := []
deriving Repr, DecidableEq, Inhabited

/-- Modelled from the spec: isEntryPoint tests the target role flag. -/
def isEntryPoint (n : Node) : Bool := n.entryPoint

/-- JS Set.prototype.add: appends if absent. -/
def addToSet (s : List String) (x : String) : List String :=
  if s.contains x then s else s ++ [x]

/-! ## Invalidation engine
(invalidateEntryPointsAndCacheOnFileChange, file-watcher source lines
84-151). The pass is instrumented with an event trace recording its side
effects in execution order. -/

/-- Side effects of one invalidation pass, in execution order: eviction of
a path from the global sources file cache, eviction of a path from an
entry point's analysesSourcesFileCache, and the final dirty determination
made for an entry point. -/
inductive Ev where
  | evictGlobal (path : String)
  | evictAnalyses (ep : String) (path : String)
  | dirtyDetermination (ep : String) (dirty : Bool)
deriving Repr, DecidableEq, Inhabited

/-- Recognizes global-cache eviction events. -/
def isGlobalEvict : Ev → Bool
  | .evictGlobal _ => true
  | _ => false

/-- Loop of source lines 92-100: for each changed file path, find its graph
node by url equality; paths with no node are skipped; hits are entered
into the allNodesToClean map keyed by file path. -/
def seedNodesToClean (g : List Node) : List String → List (String × Node) → List (String × Node)
  | [], acc => acc
  | filePath :: rest, acc =>
    match g.find? (fun node => fileUrl filePath == node.url) with
    | none => seedNodesToClean g rest acc
    | some n => seedNodesToClean g rest (mapSet acc filePath n)

/-- State of the loop of source lines 103-126 over the live
allNodesToClean map: the map entries (which grow at the end while
iterating, as a JS Map iterator visits entries appended during iteration),
the iteration index, the global sources file cache, the
potentialStylesResources set, and the event trace. -/
structure CleanState where
  entries : List (String × Node)
  i : Nat
  cache : FileCache
  resources : List String
  trace : List Ev
deriving Repr, Inhabited

/-- Body of the inner loop of source lines 114-125: for one dependee url,
recover its file path (skipping urls without one and, by JS truthiness,
the empty path), resolve the dependee node (in the source the dependee
object is held directly; here it is resolved in the graph by its url), set
it in the map, and record non-ts paths as style resource candidates. -/
def addDependeeToClean (g : List Node) (st : List (String × Node) × List String)
    (d : String) : List (String × Node) × List String :=
  match fileUrlPath d with
  | none => st
  | some fp =>
    if fp.data.isEmpty then st
    else
      match g.find? (fun node => d == node.url) with
      | none => st
      | some dep =>
        let entries := mapSet st.1 fp dep
        if jsEndsWith fp ".ts" then (entries, st.2)
        else (entries, addToSet st.2 fp)

/-- One iteration of the loop of source lines 104-126: evict the entry's
path from the global sources file cache; for a non-ts path, add it to the
style resource candidates and pull all dependees of its node into the map. -/
def cleanStep (g : List Node) (st : CleanState) : CleanState :=
  match st.entries.get? st.i with
  | none => { st with i := st.i + 1 }
  | some p =>
    let cache := FileCache.delete st.cache p.1
    let trace := st.trace ++ [Ev.evictGlobal p.1]
    if jsEndsWith p.1 ".ts" then
      { st with cache := cache, trace := trace, i := st.i + 1 }
    else
      let er := p.2.dependees.foldl (addDependeeToClean g)
        (st.entries, addToSet st.resources p.1)
      { entries := er.1, i := st.i + 1, cache := cache,
        resources := er.2, trace := trace }

/-- Fuel-indexed driver of the loop of source lines 104-126: advance the
iterator until it reaches the end of the (growing) map. The fuel makes the
function structurally total; the termination theorem shows the fuel the
engine passes is always sufficient. -/
def cleanLoop (g : List Node) : Nat → CleanState → CleanState
  | 0, st => st
  | fuel + 1, st =>
    if st.i < st.entries.length then cleanLoop g fuel (cleanStep g st) else st

/-- Combined loops of source lines 90-126: seed allNodesToClean from the
changed files, then run the worklist to its end. The number of map entries
never exceeds the number of graph nodes, so fuel one beyond that bound
always suffices. -/
def nodesToCleanState (g : List Node) (files : List String) (cache : FileCache) : CleanState :=
  cleanLoop g (g.length + 1)
    { entries := seedNodesToClean g files [], i := 0, cache := cache,
      resources := [], trace := [] }

/-- Inner loop of source lines 135-142 for one entry point: for every map
entry whose node the entry point depends on, evict the path from the entry
point's analysesSourcesFileCache and mark it dirty. The loop never changes
the dependents index it tests. Returns the updated node, the dirty flag
contribution and the trace of analyses evictions. -/
def epCleanAnalyses (entries : List (String × Node)) (ep : Node) : Node × Bool × List Ev :=
  entries.foldl
    (fun acc p =>
      if ep.dependents.contains p.2.url then
        ({ acc.1 with
            analysesSourcesFileCache := FileCache.delete acc.1.analysesSourcesFileCache p.1 },
         true, acc.2.2 ++ [Ev.evictAnalyses ep.url p.1])
      else acc)
    (ep, false, ([] : List Ev))

/-- Body of the loop of source lines 129-148 for one entry point: the
stylesheet-processor invalidation (sp models the optional
stylesheetProcessor.invalidate; the undefined processor and an undefined
return both collapse to none) is consulted when style resource candidates
exist, then the analyses cache pass runs, and a dirty entry point has its
state set to STATE_PENDING. The dirty determination is recorded last. -/
def epProcess (sp : String → List String → Option (List String))
    (entries : List (String × Node)) (resources : List String) (ep : Node) :
    Node × Bool × List Ev :=
  let dirty0 : Bool :=
    if resources.length > 0 then
      match sp ep.url resources with
      | some affected => affected.length != 0
      | none => false
    else false
  let r := epCleanAnalyses entries ep
  let dirty := dirty0 || r.2.1
  if dirty then
    ({ r.1 with state := STATE_PENDING }, true,
      r.2.2 ++ [Ev.dirtyDetermination ep.url true])
  else (r.1, false, r.2.2 ++ [Ev.dirtyDetermination ep.url false])

/-- Loop of source lines 128-148 over graph.filter(isEntryPoint), modelled
by structural recursion over the graph preserving node order, the order of
the emitted events and the disjunction of the per-entry-point dirty flags. -/
def epLoop (sp : String → List String → Option (List String))
    (entries : List (String × Node)) (resources : List String) :
    List Node → List Node × Bool × List Ev
  | [] => ([], false, [])
  | n :: rest =>
    let r := epLoop sp entries resources rest
    if isEntryPoint n then
      let p := epProcess sp entries resources n
      (p.1 :: r.1, p.2.1 || r.2.1, p.2.2 ++ r.2.2)
    else (n :: r.1, r.2.1, r.2.2)

/-- Result of one invalidation pass: the return value, the graph after the
entry-point updates, the global sources file cache after its evictions,
and the instrumented event trace. -/
structure InvalidateResult where
  invalidated : Bool
  graph : List Node
  cache : FileCache
  trace : List Ev
deriving Repr, Inhabited

/-- Shallow embedding of invalidateEntryPointsAndCacheOnFileChange
(file-watcher source lines 84-151): seed and close the allNodesToClean
worklist while evicting the global cache, then walk the entry points,
marking dirty ones PENDING; return whether any entry point was
invalidated. -/
def invalidateEntryPointsAndCacheOnFileChange (g : List Node) (files : List String)
    (sourcesFileCache : FileCache) (sp : String → List String → Option (List String)) :
    InvalidateResult :=
  let st := nodesToCleanState g files sourcesFileCache
  let r := epLoop sp st.entries st.resources g
  { invalidated := r.2.1, graph := r.1, cache := st.cache, trace := st.trace ++ r.2.2 }

/-- Trace of one invalidation pass. -/
def invalidateTrace (g : List Node) (files : List String) (sourcesFileCache : FileCache)
    (sp : String → List String → Option (List String)) : List Ev :=
  (invalidateEntryPointsAndCacheOnFileChange g files sourcesFileCache sp).trace

/-- Declarative dirty condition for one entry point, read off the spec's
step 4: dirty iff the stylesheet fan-out invalidator reports affected
files for a non-empty resource candidate set, or some node in the final
to-clean map is among the entry point's dependents. -/
def epDirtySpec (sp : String → List String → Option (List String))
    (entries : List (String × Node)) (resources : List String) (ep : Node) : Prop :=
  (resources.length > 0 ∧ ∃ l, sp ep.url resources = some l ∧ l.length ≠ 0) ∨
  (∃ p ∈ entries, ep.dependents.contains p.2.url = true)

/-- First-occurrence deduplication of a file batch. -/
def dedupKeepFirst : List String → List String
  | [] => []
  | x :: xs => x :: dedupKeepFirst (xs.filter (fun y => y != x))
termination_by l => l.length
decreasing_by
  simp only [List.length_cons]
  exact Nat.lt_succ_of_le (List.length_filter_le _ _)

/-- Ordering property of a trace in which every global-cache eviction
comes after every other recorded side effect (the per-entry-point cache
deletions and dirty determinations). -/
def globalEvictionsLast (t : List Ev) : Prop :=
  t = t.filter (fun e => !isGlobalEvict e) ++ t.filter isGlobalEvict

/-- Ordering property of a trace in which every global-cache eviction
comes before every other recorded side effect. -/
def globalEvictionsFirst (t : List Ev) : Prop :=
  t = t.filter isGlobalEvict ++ t.filter (fun e => !isGlobalEvict e)

/-- Well-formedness of a to-clean map: keys are distinct, and every value
is a graph node whose url is the file url of its key (the invariant the
engine maintains: a map entry holds the graph node of its path). -/
def entriesWF (g : List Node) (E : List (String × Node)) : Prop :=
  (E.map Prod.fst).Nodup ∧ ∀ p ∈ E, p.2 ∈ g ∧ p.2.url = fileUrl p.1

/-- Closure property of the worklist state: every already-visited map
entry with a non-ts path has, for each dependee url of its node that
yields a non-empty file path and resolves to a graph node, that path among
the map keys. -/
def processedClosed (g : List Node) (st : CleanState) : Prop :=
  ∀ j, j < st.i → ∀ p, st.entries.get? j = some p → jsEndsWith p.1 ".ts" = false →
    ∀ d ∈ p.2.dependees, ∀ fp, fileUrlPath d = some fp → fp.data.isEmpty = false →
      ∀ dep, g.find? (fun node => d == node.url) = some dep →
        fp ∈ st.entries.map Prod.fst

/-! ## Caching compiler host (src/lib/ts/cache-compiler-host.ts). The
underlying TypeScript incremental compiler host is an oracle of pure
functions; parsed source files and emitted artifacts are opaque String
handles. -/

/-- Model of node path.extname: the extension of the base name from its
last dot, empty when the base name has no dot or only a leading dot. -/
def extname (p : String) : String :=
  let base := (p.data.reverse.takeWhile (fun c => c ≠ '/')).reverse
  let revAfterDot := base.reverse.takeWhile (fun c => c ≠ '.')
  if revAfterDot.length + 1 ≤ base.length then
    if revAfterDot.length + 1 == base.length then ""
    else ⟨'.' :: revAfterDot.reverse⟩
  else ""

/-- Output cache entry (source lines 106-109): last written content and
its content hash, stored under version. -/
structure OutputEntry where
  content : String
  version : String
deriving Repr, DecidableEq, Inhabited

/-- State writeFile acts on: the entry point's outputCache and the log of
write-throughs to the underlying host (the tsbuildinfo branch). -/
structure WriteState where
  outputCache : List (String × OutputEntry)
  hostWrites : List (String × String)
deriving Repr, DecidableEq, Inhabited

/-- Outcome of writeFile: the new state together with whether the output
cache entry was (re)written, or the failure of the single-source-file
assertion of source line 100. -/
inductive WriteResult where
  | ok (st : WriteState) (written : Bool)
  | assertionFailed
deriving Repr, DecidableEq, Inhabited

/-- JS truthiness of sourceFiles?.length: true when the array is absent or
empty. -/
def hasNoSourceFiles (sourceFiles : Option (List String)) : Bool :=
  match sourceFiles with
  | none => true
  | some l => l.length == 0

/-- Shallow embedding of writeFile (source lines 81-110): ngtypecheck
artifacts are dropped; a tsbuildinfo emit without source files is written
through to the underlying host; otherwise exactly one source file is
asserted, a byte-identical cached content suppresses the write, and a
differing content replaces the entry with the new content and its hash.
The hash function models createHash sha256. -/
def writeFile (hash : String → String) (st : WriteState)
    (fileName data : String) (sourceFiles : Option (List String)) : WriteResult :=
  if jsIncludes fileName ".ngtypecheck." then .ok st false
  else if hasNoSourceFiles sourceFiles && (extname fileName == ".tsbuildinfo") then
    .ok { st with hostWrites := st.hostWrites ++ [(fileName, data)] } false
  else if (match sourceFiles with | none => false | some l => l.length == 1) = false then
    .assertionFailed
  else
    let newEntry : OutputEntry := { content := data, version := hash data }
    let written : WriteState := { st with outputCache := mapSet st.outputCache fileName newEntry }
    match mapGet st.outputCache fileName with
    | some e => if e.content == data then .ok st false else .ok written true
    | none => .ok written true

/-- Oracle for the underlying ts incremental compiler host primitives
consumed by the caching decorator. -/
structure HostOracle where
  fileExists : String → Bool
  readFile : String → Option String
  getSourceFile : String → Option String

/-- Shallow embedding of getNode (source lines 27-37): resolve the node of
a file name in the graph by its canonical url, creating and registering it
when absent. -/
def getNode (g : List Node) (fileName : String) : Node × List Node :=
  let nodeUri := fileUrl (ensureUnixPath fileName)
  match g.find? (fun n => n.url == nodeUri) with
  | some n => (n, g)
  | none =>
    let n : Node := { url := nodeUri }
    (n, g ++ [n])

/-- Modelled from the spec: the per-node update of one dependsOn edge: the
source node gains the target url among its dependents, the target node
gains the source url among its dependees (idempotently, set semantics). -/
def edgeUpd (fromUrl toUrl : String) (n : Node) : Node :=
  let n1 := if n.url == fromUrl then { n with dependents := addToSet n.dependents toUrl }
            else n
  if n1.url == toUrl then { n1 with dependees := addToSet n1.dependees fromUrl } else n1

/-- Modelled from the spec: Node.dependsOn for a single edge adds the
target url to the dependents of the source node and the source url to the
dependees of the target node, idempotently (the two indices of one
relation; src/lib/graph/node.ts is not in the sources). -/
def graphAddEdge (g : List Node) (fromUrl toUrl : String) : List Node :=
  g.map (edgeUpd fromUrl toUrl)

/-- Node.dependsOn over a list of targets, left to right. -/
def graphDependsOn (g : List Node) (fromUrl : String) (toUrls : List String) : List Node :=
  toUrls.foldl (fun g' t => graphAddEdge g' fromUrl t) g

/-- Shallow embedding of addDependee (source lines 39-42): the entry point
depends on the node of the file name. -/
def addDependee (g : List Node) (epUrl : String) (fileName : String) : List Node :=
  let r := getNode g fileName
  graphDependsOn r.2 epUrl [r.1.url]

/-- Shallow embedding of the host fileExists decorator (source lines
54-61). Returns the answer, the cache after the call, and whether the
underlying host was invoked. -/
def hostFileExists (host : HostOracle) (c : FileCache) (fileName : String) :
    Bool × FileCache × Bool :=
  let r := FileCache.getOrCreate c fileName
  match r.1.exists? with
  | some b => (b, r.2, false)
  | none =>
    let b := host.fileExists fileName
    (b, mapSet r.2 fileName { r.1 with exists? := some b }, true)

/-- Shallow embedding of the host readFile decorator (source lines
112-120). Returns the content, the graph after addDependee, the cache
after the call, and whether the underlying host was invoked. -/
def hostReadFile (host : HostOracle) (epUrl : String) (g : List Node) (c : FileCache)
    (fileName : String) : Option String × List Node × FileCache × Bool :=
  let g1 := addDependee g epUrl fileName
  let r := FileCache.getOrCreate c fileName
  match r.1.content with
  | some s => (some s, g1, r.2, false)
  | none =>
    let s := host.readFile fileName
    (s, g1, mapSet r.2 fileName { r.1 with content := s }, true)

/-- Shallow embedding of the host getSourceFile decorator (source lines
63-79). Returns the parsed-unit handle, the graph after addDependee, the
cache after the call, and whether the underlying host was invoked. -/
def hostGetSourceFile (host : HostOracle) (epUrl : String) (g : List Node) (c : FileCache)
    (fileName : String) (shouldCreateNewSourceFile : Bool) :
    Option String × List Node × FileCache × Bool :=
  let g1 := addDependee g epUrl fileName
  let r := FileCache.getOrCreate c fileName
  if shouldCreateNewSourceFile || r.1.sourceFile.isNone then
    let sf := host.getSourceFile fileName
    (sf, g1, mapSet r.2 fileName { r.1 with sourceFile := sf }, true)
  else (r.1.sourceFile, g1, r.2, false)

/-- Template test of source line 140: the regex html?|svg anchored at the
end of the extension. -/
def isTemplateExt (ext : String) : Bool :=
  jsEndsWith ext "htm" || jsEndsWith ext "html" || jsEndsWith ext "svg"

/-- Result of stylesheetProcessor.bundleFile (source lines 144-150):
referenced files, bundled contents, and the diagnostics counts. -/
structure BundleResult where
  referencedFiles : List String
  contents : String
  errors : Nat
  warnings : Nat
deriving Repr, DecidableEq, Inhabited

/-- Outcome of readResource: the contents (possibly undefined for a
template whose read returned undefined) with the final graph and cache, or
a thrown error with the state at the throw. -/
inductive ReadResourceResult where
  | ok (contents : Option String) (g : List Node) (c : FileCache)
  | error (g : List Node) (c : FileCache)
deriving Repr, DecidableEq, Inhabited

/-- Graph update of the readResource stylesheet branch (source lines
144-159): resolve the stylesheet node, resolve or create a node for every
bundler-reported referenced file (in order), make the stylesheet depend on
every referenced node other than itself, and make every ts dependee of the
stylesheet depend on those nodes as well. -/
def readResourceStylesheetGraph (bundle : String → BundleResult) (g1 : List Node)
    (fileName : String) : List Node :=
  let b := bundle fileName
  let nr := getNode g1 fileName
  let node := nr.1
  let fr := b.referencedFiles.foldl
    (fun (acc : List String × List Node) rf =>
      let gr := getNode acc.2 rf
      (acc.1 ++ [gr.1.url], gr.2)) ([], nr.2)
  let depUrls := fr.1.filter (fun u => u != node.url)
  let g4 := graphDependsOn fr.2 node.url depUrls
  node.dependees.foldl
    (fun g' d => if jsEndsWith d ".ts" then graphDependsOn g' d depUrls else g') g4

/-- Shallow embedding of readResource (source lines 131-178): register the
entry point dependee, and on a cache miss read a template through the
underlying host into the cache, or bundle a stylesheet, register the
bundler-reported referenced files (excluding the node itself) as
dependencies of the stylesheet node and of each of its ts dependees, and
return the bundled contents uncached; bundler errors throw after the edges
are registered. -/
def readResource (host : HostOracle) (bundle : String → BundleResult) (epUrl : String)
    (g : List Node) (c : FileCache) (fileName : String) : ReadResourceResult :=
  let g1 := addDependee g epUrl fileName
  let r := FileCache.getOrCreate c fileName
  match r.1.content with
  | some s => .ok (some s) g1 r.2
  | none =>
    if host.fileExists fileName = false then .error g1 r.2
    else if isTemplateExt (extname fileName) then
      let s := host.readFile fileName
      .ok s g1 (mapSet r.2 fileName { r.1 with content := s, exists? := some true })
    else
      let g5 := readResourceStylesheetGraph bundle g1 fileName
      if (bundle fileName).errors > 0 then .error g5 r.2
      else .ok (some (bundle fileName).contents) g5 r.2

/-- Dependents index of the node with a given url, empty when the url has
no node. -/
def urlDependents (g : List Node) (u : String) : List String :=
  match g.find? (fun n => n.url == u) with
  | some n => n.dependents
  | none => []

/-- Dependees index of the node with a given url, empty when the url has
no node. -/
def urlDependees (g : List Node) (u : String) : List String :=
  match g.find? (fun n => n.url == u) with
  | some n => n.dependees
  | none => []

/-! ## Concrete fixtures used by witnesses: a stylesheet partial, a
stylesheet importing it, a ts component reading the stylesheet, and one
entry point depending on the stylesheet and the component. -/

/-- Fixture: a stylesheet partial with the importing stylesheet as its
dependee. -/
def exP : Node := { url := "file://p.scss", dependees := ["file://s.scss"] }

/-- Fixture: a stylesheet depending on the partial, depended on by a ts
file and the entry point. -/
def exS : Node :=
  { url := "file://s.scss", dependents := ["file://p.scss"],
    dependees := ["file://t.ts", "ng://e"] }

/-- Fixture: a ts file depending on the stylesheet. -/
def exT : Node :=
  { url := "file://t.ts", dependents := ["file://s.scss"], dependees := ["ng://e"] }

/-- Fixture: the entry point, depending on the stylesheet and the ts file. -/
def exEP : Node :=
  { url := "ng://e", entryPoint := true,
    dependents := ["file://s.scss", "file://t.ts"] }

/-- Fixture graph for the witnesses. -/
def exGraph : List Node := [exEP, exT, exS, exP]

/-- Fixture: an underlying compiler host on which every file exists. -/
def hostW : HostOracle :=
  { fileExists := fun _ => true, readFile := fun _ => none, getSourceFile := fun _ => none }

/-- Fixture: a stylesheet bundler reporting one referenced partial and no
diagnostics. -/
def bundleW : String → BundleResult :=
  fun _ => { referencedFiles := ["p1.scss"], contents := "OUT", errors := 0, warnings := 0 }

/-- Fixture graph for the readResource witness: an entry point, a ts
component and the stylesheet it reads. -/
def gRRW : List Node :=
  [{ url := "ng://e" }, { url := "file://comp.ts", dependents := ["file://s.scss"] },
   { url := "file://s.scss", dependees := ["file://comp.ts"] }]

/-! ## Basic lemmas about the JS map and string primitives -/

theorem string_eq_of_data {a b : String} (h : a.data = b.data) : a = b := by
  cases a; cases b; simp only at h; rw [h]

theorem data_append (a b : String) : (a ++ b).data = a.data ++ b.data := by
  cases a; cases b; rfl

theorem fileUrlPath_fileUrl (p : String) : fileUrlPath (fileUrl p) = some p := by
  unfold fileUrlPath fileUrl
  rw [data_append]
  have h1 : "file://".data.isPrefixOf ("file://".data ++ p.data) = true := by
    simp [List.isPrefixOf_iff_prefix]
  rw [h1]
  simp only [if_true, Option.some.injEq]
  apply string_eq_of_data
  show ("file://".data ++ p.data).drop 7 = p.data
  have h7 : "file://".data.length = 7 := by decide
  rw [← h7, List.drop_left]

theorem fileUrl_fileUrlPath {u p : String} (h : fileUrlPath u = some p) : fileUrl p = u := by
  unfold fileUrlPath at h
  by_cases hp : "file://".data.isPrefixOf u.data
  · rw [if_pos hp] at h
    cases h
    rw [List.isPrefixOf_iff_prefix] at hp
    obtain ⟨t, ht⟩ := hp
    apply string_eq_of_data
    rw [show fileUrl ⟨u.data.drop 7⟩ = "file://" ++ ⟨u.data.drop 7⟩ from rfl, data_append]
    show "file://".data ++ u.data.drop 7 = u.data
    conv_rhs => rw [← ht]
    rw [← ht]
    have h7 : "file://".data.length = 7 := by decide
    rw [← h7, List.drop_left]
  · rw [if_neg hp] at h
    cases h

theorem fileUrl_inj {a b : String} (h : fileUrl a = fileUrl b) : a = b := by
  have h2 := congrArg String.data h
  unfold fileUrl at h2
  rw [data_append, data_append] at h2
  exact string_eq_of_data (List.append_cancel_left h2)

theorem mapGet_map_of_any {α : Type} (m : List (String × α)) (k : String) (v : α)
    (h : m.any (fun p => p.1 == k) = true) :
    mapGet (m.map (fun p => if p.1 == k then (k, v) else p)) k = some v := by
  induction m with
  | nil => simp at h
  | cons p t ih =>
    by_cases hp : p.1 = k
    · simp only [mapGet, List.map_cons]
      rw [if_pos (by simp [hp]), List.find?_cons_of_pos _ (by simp)]
      simp
    · have hp' : (p.1 == k) = false := by simp [hp]
      simp only [List.any_cons, hp', Bool.false_or] at h
      simp only [mapGet, List.map_cons]
      rw [if_neg (by simp [hp]), List.find?_cons_of_neg _ (by simp [hp])]
      exact ih h

theorem mapGet_append_single {α : Type} (m : List (String × α)) (k : String) (v : α)
    (h : m.any (fun p => p.1 == k) = false) :
    mapGet (m ++ [(k, v)]) k = some v := by
  induction m with
  | nil => simp [mapGet, List.find?]
  | cons p t ih =>
    simp only [List.any_cons, Bool.or_eq_false_iff] at h
    simp only [mapGet, List.cons_append, List.find?, h.1]
    exact ih h.2

theorem mapGet_mapSet_self {α : Type} (m : List (String × α)) (k : String) (v : α) :
    mapGet (mapSet m k v) k = some v := by
  unfold mapSet
  by_cases h : m.any (fun p => p.1 == k) = true
  · rw [if_pos h]; exact mapGet_map_of_any m k v h
  · rw [if_neg h]
    exact mapGet_append_single m k v (Bool.of_not_eq_true h)

/-! ## Claim theorems for the caching compiler host -/

/-- Claim C10: for every file name containing the substring .ngtypecheck.,
writeFile returns immediately: the state (output cache and host
write-throughs) is untouched and no write is reported, regardless of the
data, the source files and the cache contents. -/
theorem writeFile_ngtypecheck_noop (hash : String → String) (st : WriteState)
    (fileName data : String) (sourceFiles : Option (List String))
    (h : jsIncludes fileName ".ngtypecheck." = true) :
    writeFile hash st fileName data sourceFiles = .ok st false := by
  unfold writeFile
  rw [h]
  rfl

/-- Witness for C10 at a concrete ngtypecheck artifact over a non-empty
output cache. -/
theorem writeFile_ngtypecheck_noop_witness :
    jsIncludes "a.ngtypecheck.ts" ".ngtypecheck." = true ∧
    writeFile (fun s => s) ⟨[("a.ngtypecheck.ts", ⟨"old", "v"⟩)], []⟩
        "a.ngtypecheck.ts" "x" (some ["s"]) =
      .ok ⟨[("a.ngtypecheck.ts", ⟨"old", "v"⟩)], []⟩ false :=
  ⟨by decide, writeFile_ngtypecheck_noop _ _ _ _ _ (by decide)⟩

/-- Claim C5: output-cache write suppression. For a normal single-source
emit (not an ngtypecheck artifact), a write whose data equals the cached
content is a no-op reporting no write, a write with differing data
replaces the entry and stores the hash of the new data, and in sequence an
identical second write reports written=false while a differing third write
reports written=true with the updated hash. -/
theorem writeFile_idempotent_suppression (hash : String → String) (st : WriteState)
    (fileName data data' s0 : String)
    (hng : jsIncludes fileName ".ngtypecheck." = false) :
    (∀ e, mapGet st.outputCache fileName = some e → e.content = data →
      writeFile hash st fileName data (some [s0]) = .ok st false) ∧
    (∀ e, mapGet st.outputCache fileName = some e → e.content ≠ data →
      writeFile hash st fileName data (some [s0]) =
        .ok { st with outputCache := mapSet st.outputCache fileName ⟨data, hash data⟩ } true) ∧
    (∃ st1 w1, writeFile hash st fileName data (some [s0]) = .ok st1 w1 ∧
      writeFile hash st1 fileName data (some [s0]) = .ok st1 false ∧
      (data' ≠ data →
        ∃ st2, writeFile hash st1 fileName data' (some [s0]) = .ok st2 true ∧
          mapGet st2.outputCache fileName = some ⟨data', hash data'⟩ ∧
          st2.hostWrites = st1.hostWrites)) := by
  have hguard : ∀ st1 : WriteState, ∀ d : String, writeFile hash st1 fileName d (some [s0]) =
      (match mapGet st1.outputCache fileName with
       | some e => if e.content == d then .ok st1 false else .ok { st1 with outputCache := mapSet st1.outputCache fileName ⟨d, hash d⟩ } true
       | none => .ok { st1 with outputCache := mapSet st1.outputCache fileName ⟨d, hash d⟩ } true) := by
    intro st1 d
    unfold writeFile
    rw [hng]
    simp [hasNoSourceFiles]
  refine ⟨?_, ?_, ?_⟩
  · intro e he hc
    rw [hguard st data, he]
    dsimp only
    have hb : (e.content == data) = true := by simp [hc]
    rw [if_pos hb]
  · intro e he hc
    rw [hguard st data, he]
    dsimp only
    have hb : ¬ ((e.content == data) = true) := by simp [hc]
    rw [if_neg hb]
  · match hmg : mapGet st.outputCache fileName with
    | some e =>
      by_cases hc : e.content = data
      · refine ⟨st, false, ?_, ?_, ?_⟩
        · rw [hguard st data, hmg]
          dsimp only
          rw [if_pos (show (e.content == data) = true by simp [hc])]
        · rw [hguard st data, hmg]
          dsimp only
          rw [if_pos (show (e.content == data) = true by simp [hc])]
        · intro hne
          refine ⟨{ st with outputCache := mapSet st.outputCache fileName ⟨data', hash data'⟩ }, ?_, ?_, rfl⟩
          · rw [hguard st data', hmg]
            dsimp only
            have hb2 : ¬ ((e.content == data') = true) := by
              simp only [hc, beq_iff_eq]
              exact fun h => hne h.symm
            rw [if_neg hb2]
          · exact mapGet_mapSet_self _ _ _
      · refine ⟨{ st with outputCache := mapSet st.outputCache fileName ⟨data, hash data⟩ }, true, ?_, ?_, ?_⟩
        · rw [hguard st data, hmg]
          dsimp only
          rw [if_neg (show ¬ ((e.content == data) = true) by simp [hc])]
        · rw [hguard _ data]
          have hm2 : mapGet ({ st with outputCache := mapSet st.outputCache fileName (⟨data, hash data⟩ : OutputEntry) } : WriteState).outputCache fileName = some ⟨data, hash data⟩ := mapGet_mapSet_self _ _ _
          rw [hm2]
          dsimp only
          rw [if_pos (beq_self_eq_true data)]
        · intro hne
          refine ⟨{ st with outputCache := mapSet (mapSet st.outputCache fileName ⟨data, hash data⟩) fileName ⟨data', hash data'⟩ }, ?_, ?_, rfl⟩
          · rw [hguard _ data']
            have hm2 : mapGet ({ st with outputCache := mapSet st.outputCache fileName (⟨data, hash data⟩ : OutputEntry) } : WriteState).outputCache fileName = some ⟨data, hash data⟩ := mapGet_mapSet_self _ _ _
            rw [hm2]
            dsimp only
            rw [if_neg (show ¬ ((data == data') = true) by simp; exact fun h => hne h.symm)]
          · exact mapGet_mapSet_self _ _ _
    | none =>
      refine ⟨{ st with outputCache := mapSet st.outputCache fileName ⟨data, hash data⟩ }, true, ?_, ?_, ?_⟩
      · rw [hguard st data, hmg]
      · rw [hguard _ data]
        have hm2 : mapGet ({ st with outputCache := mapSet st.outputCache fileName (⟨data, hash data⟩ : OutputEntry) } : WriteState).outputCache fileName = some ⟨data, hash data⟩ := mapGet_mapSet_self _ _ _
        rw [hm2]
        dsimp only
        rw [if_pos (beq_self_eq_true data)]
      · intro hne
        refine ⟨{ st with outputCache := mapSet (mapSet st.outputCache fileName ⟨data, hash data⟩) fileName ⟨data', hash data'⟩ }, ?_, ?_, rfl⟩
        · rw [hguard _ data']
          have hm2 : mapGet ({ st with outputCache := mapSet st.outputCache fileName (⟨data, hash data⟩ : OutputEntry) } : WriteState).outputCache fileName = some ⟨data, hash data⟩ := mapGet_mapSet_self _ _ _
          rw [hm2]
          dsimp only
          rw [if_neg (show ¬ ((data == data') = true) by simp; exact fun h => hne h.symm)]
        · exact mapGet_mapSet_self _ _ _

/-- Witness for C5 at a concrete emit: second identical write suppressed,
third differing write stored with the new hash. -/
theorem writeFile_idempotent_suppression_witness :
    jsIncludes "a.js" ".ngtypecheck." = false ∧
    (∃ st1 w1, writeFile (fun s => s ++ "#h") ⟨[], []⟩ "a.js" "x" (some ["s"]) = .ok st1 w1 ∧
      writeFile (fun s => s ++ "#h") st1 "a.js" "x" (some ["s"]) = .ok st1 false ∧
      ("y" ≠ "x" →
        ∃ st2, writeFile (fun s => s ++ "#h") st1 "a.js" "y" (some ["s"]) = .ok st2 true ∧
          mapGet st2.outputCache "a.js" = some ⟨"y", "y#h"⟩ ∧
          st2.hostWrites = st1.hostWrites)) :=
  ⟨by decide,
    (writeFile_idempotent_suppression (fun s => s ++ "#h") ⟨[], []⟩ "a.js" "x" "y" "s"
      (by decide)).2.2⟩

/-- Claim C6: content-cache trust. Once a cache entry's exists, content or
sourceFile field is populated, the decorated fileExists, readFile and
getSourceFile (with shouldCreateNewSourceFile false) return the cached
value, leave the cache unchanged (until an explicit eviction) and do not
invoke the underlying compiler host. -/
theorem cache_trusts_populated_fields (host : HostOracle) (epUrl : String) (g : List Node)
    (c : FileCache) (fileName : String) (e : CacheEntry)
    (he : mapGet c fileName = some e) :
    (∀ b, e.exists? = some b → hostFileExists host c fileName = (b, c, false)) ∧
    (∀ s, e.content = some s →
      hostReadFile host epUrl g c fileName = (some s, addDependee g epUrl fileName, c, false)) ∧
    (∀ sf, e.sourceFile = some sf →
      hostGetSourceFile host epUrl g c fileName false =
        (some sf, addDependee g epUrl fileName, c, false)) := by
  unfold mapGet at he
  match hf : c.find? (fun p => p.1 == fileName) with
  | none => rw [hf] at he; cases he
  | some q =>
    rw [hf] at he
    simp only [Option.map_some', Option.some.injEq] at he
    have hoc : FileCache.getOrCreate c fileName = (e, c) := by
      unfold FileCache.getOrCreate
      rw [hf]
      dsimp only
      rw [he]
    refine ⟨?_, ?_, ?_⟩
    · intro b hb
      unfold hostFileExists
      rw [hoc]
      simp [hb]
    · intro s hs
      unfold hostReadFile
      rw [hoc]
      simp [hs]
    · intro sf hsf
      unfold hostGetSourceFile
      rw [hoc]
      simp [hsf]

/-- Witness for C6 at a fully populated concrete entry. -/
theorem cache_trusts_populated_fields_witness :
    mapGet [("f.ts", ({ exists? := some true, content := some "c", sourceFile := some "sf" } :
        CacheEntry))] "f.ts" =
      some { exists? := some true, content := some "c", sourceFile := some "sf" } ∧
    hostFileExists ⟨fun _ => false, fun _ => none, fun _ => none⟩
        [("f.ts", { exists? := some true, content := some "c", sourceFile := some "sf" })]
        "f.ts" =
      (true, [("f.ts", { exists? := some true, content := some "c", sourceFile := some "sf" })],
        false) := by
  refine ⟨by decide, ?_⟩
  exact (cache_trusts_populated_fields ⟨fun _ => false, fun _ => none, fun _ => none⟩ "ng://e" []
    [("f.ts", { exists? := some true, content := some "c", sourceFile := some "sf" })] "f.ts"
    { exists? := some true, content := some "c", sourceFile := some "sf" }
    (by decide)).1 true rfl

/-! ## Lemmas and claim theorems for the invalidation engine: the no-op
case and the ordering of the pass's side effects -/

theorem seedNodesToClean_unknown (g : List Node) (files : List String)
    (acc : List (String × Node))
    (h : ∀ f ∈ files, g.find? (fun node => fileUrl f == node.url) = none) :
    seedNodesToClean g files acc = acc := by
  induction files generalizing acc with
  | nil => rfl
  | cons f rest ih =>
    unfold seedNodesToClean
    rw [h f (List.mem_cons_self f rest)]
    exact ih acc (fun x hx => h x (List.mem_cons_of_mem f hx))

theorem epProcess_nil (sp : String → List String → Option (List String)) (n : Node) :
    epProcess sp [] [] n = (n, false, [Ev.dirtyDetermination n.url false]) := by
  unfold epProcess epCleanAnalyses
  simp

theorem epLoop_nil_entries (sp : String → List String → Option (List String))
    (l : List Node) :
    (epLoop sp [] [] l).1 = l ∧ (epLoop sp [] [] l).2.1 = false := by
  induction l with
  | nil => exact ⟨rfl, rfl⟩
  | cons n rest ih =>
    simp only [epLoop]
    by_cases hn : isEntryPoint n
    · simp [hn, epProcess_nil, ih.1, ih.2]
    · simp [hn, ih.1, ih.2]

theorem cleanLoop_empty (g : List Node) (c : FileCache) :
    cleanLoop g (g.length + 1)
      { entries := [], i := 0, cache := c, resources := [], trace := [] } =
      { entries := [], i := 0, cache := c, resources := [], trace := [] } := by
  simp [cleanLoop]

/-- Claim C1: a file batch containing only paths with no matching graph
node is a no-op: invalidateEntryPointsAndCacheOnFileChange returns false
and leaves the sources file cache and every node of the graph unchanged,
in particular every entry point's analysesSourcesFileCache and state. -/
theorem invalidate_unknown_paths_noop (g : List Node) (files : List String)
    (c : FileCache) (sp : String → List String → Option (List String))
    (h : ∀ f ∈ files, g.find? (fun node => fileUrl f == node.url) = none) :
    invalidateEntryPointsAndCacheOnFileChange g files c sp =
      { invalidated := false, graph := g, cache := c, trace := (epLoop sp [] [] g).2.2 } := by
  unfold invalidateEntryPointsAndCacheOnFileChange nodesToCleanState
  rw [seedNodesToClean_unknown g files [] h, cleanLoop_empty g c]
  obtain ⟨h1, h2⟩ := epLoop_nil_entries sp g
  dsimp only
  simp [h1, h2]

/-- Witness for C1: a batch whose only path has no node in a one-node
graph. -/
theorem invalidate_unknown_paths_noop_witness :
    (∀ f ∈ ["b.ts"], ([{ url := "file://a.ts" }] : List Node).find?
        (fun node => fileUrl f == node.url) = none) ∧
    invalidateEntryPointsAndCacheOnFileChange [{ url := "file://a.ts" }] ["b.ts"]
        [("a.ts", {})] (fun _ _ => none) =
      { invalidated := false, graph := [{ url := "file://a.ts" }], cache := [("a.ts", {})],
        trace := (epLoop (fun _ _ => none) [] [] [{ url := "file://a.ts" }]).2.2 } :=
  ⟨by decide, invalidate_unknown_paths_noop _ _ _ _ (by decide)⟩

theorem cleanStep_trace_shape (g : List Node) (st : CleanState) :
    (cleanStep g st).trace = st.trace ∨
    ∃ p, (cleanStep g st).trace = st.trace ++ [Ev.evictGlobal p] := by
  unfold cleanStep
  cases hm : st.entries.get? st.i with
  | none => exact .inl rfl
  | some p =>
    dsimp only
    by_cases hts : jsEndsWith p.1 ".ts"
    · rw [if_pos hts]
      exact .inr ⟨p.1, rfl⟩
    · rw [if_neg hts]
      exact .inr ⟨p.1, rfl⟩

theorem cleanLoop_trace_global (g : List Node) (fuel : Nat) :
    ∀ st : CleanState, (∀ e ∈ st.trace, isGlobalEvict e = true) →
    ∀ e ∈ (cleanLoop g fuel st).trace, isGlobalEvict e = true := by
  induction fuel with
  | zero => intro st h; exact h
  | succ n ih =>
    intro st h
    simp only [cleanLoop]
    by_cases hc : st.i < st.entries.length
    · rw [if_pos hc]
      refine ih (cleanStep g st) ?_
      intro e he
      rcases cleanStep_trace_shape g st with hs | ⟨p, hs⟩
      · rw [hs] at he; exact h e he
      · rw [hs] at he
        rcases List.mem_append.mp he with h1 | h2
        · exact h e h1
        · rw [List.mem_singleton.mp h2]; rfl
    · rw [if_neg hc]; exact h

theorem epCleanAnalyses_trace_no_global (E : List (String × Node)) (ep : Node) :
    ∀ e ∈ (epCleanAnalyses E ep).2.2, isGlobalEvict e = false := by
  unfold epCleanAnalyses
  suffices hgen : ∀ (acc : Node × Bool × List Ev), (∀ e ∈ acc.2.2, isGlobalEvict e = false) →
      ∀ e ∈ (E.foldl (fun acc p =>
        if ep.dependents.contains p.2.url then
          ({ acc.1 with analysesSourcesFileCache :=
              FileCache.delete acc.1.analysesSourcesFileCache p.1 },
           true, acc.2.2 ++ [Ev.evictAnalyses ep.url p.1])
        else acc) acc).2.2, isGlobalEvict e = false by
    exact hgen (ep, false, []) (by intro e he; cases he)
  induction E with
  | nil => intro acc h; exact h
  | cons p t ih =>
    intro acc h
    rw [List.foldl_cons]
    refine ih _ ?_
    by_cases hd : ep.dependents.contains p.2.url
    · rw [if_pos hd]
      intro e he
      rcases List.mem_append.mp he with h1 | h2
      · exact h e h1
      · rw [List.mem_singleton.mp h2]; rfl
    · rw [if_neg hd]; exact h

theorem epProcess_trace_no_global (sp : String → List String → Option (List String))
    (E : List (String × Node)) (R : List String) (ep : Node) :
    ∀ e ∈ (epProcess sp E R ep).2.2, isGlobalEvict e = false := by
  unfold epProcess
  dsimp only
  by_cases hd : (if R.length > 0 then
      match sp ep.url R with
      | some affected => affected.length != 0
      | none => false
    else false) || (epCleanAnalyses E ep).2.1
  · rw [if_pos hd]
    intro e he
    rcases List.mem_append.mp he with h1 | h2
    · exact epCleanAnalyses_trace_no_global E ep e h1
    · rw [List.mem_singleton.mp h2]; rfl
  · rw [if_neg hd]
    intro e he
    rcases List.mem_append.mp he with h1 | h2
    · exact epCleanAnalyses_trace_no_global E ep e h1
    · rw [List.mem_singleton.mp h2]; rfl

theorem epLoop_trace_no_global (sp : String → List String → Option (List String))
    (E : List (String × Node)) (R : List String) (l : List Node) :
    ∀ e ∈ (epLoop sp E R l).2.2, isGlobalEvict e = false := by
  induction l with
  | nil => intro e he; cases he
  | cons n rest ih =>
    simp only [epLoop]
    by_cases hn : isEntryPoint n
    · rw [if_pos hn]
      intro e he
      rcases List.mem_append.mp he with h1 | h2
      · exact epProcess_trace_no_global sp E R n e h1
      · exact ih e h2
    · rw [if_neg hn]; exact ih

/-- Claim C7, amended: within one invalidation pass, every eviction from
the global sources file cache happens before (not after) all
per-entry-point dirty determinations and per-target analyses-cache
deletions; the trace of a pass is its global evictions followed by the
entry-point events. -/
theorem global_evictions_precede_decisions (g : List Node) (files : List String)
    (c : FileCache) (sp : String → List String → Option (List String)) :
    globalEvictionsFirst (invalidateTrace g files c sp) := by
  unfold globalEvictionsFirst invalidateTrace invalidateEntryPointsAndCacheOnFileChange
  dsimp only
  have hA : ∀ e ∈ (nodesToCleanState g files c).trace, isGlobalEvict e = true := by
    unfold nodesToCleanState
    exact cleanLoop_trace_global g (g.length + 1) _ (by intro e he; cases he)
  have hB := epLoop_trace_no_global sp (nodesToCleanState g files c).entries
    (nodesToCleanState g files c).resources g
  rw [List.filter_append, List.filter_append]
  rw [List.filter_eq_self.mpr hA]
  rw [List.filter_eq_nil_iff.mpr (fun e he => by rw [hB e he]; exact Bool.false_ne_true)]
  rw [List.filter_eq_nil_iff.mpr (fun e he => by rw [hA e he]; simp)]
  rw [List.filter_eq_self.mpr (fun e he => by rw [hB e he]; rfl)]
  simp

/-- Counterexample to claim C7 as stated: at a concrete graph with one
entry point depending on one changed ts file, the global eviction is
recorded before the entry point's analyses eviction and dirty
determination, not after them. -/
theorem global_evictions_after_decisions_counterexample :
    ¬ globalEvictionsLast (invalidateTrace
      [{ url := "ng://t1", entryPoint := true, dependents := ["file://a.ts"], analysesSourcesFileCache := [("a.ts", {})] },
       { url := "file://a.ts", dependees := ["ng://t1"] }]
      ["a.ts"] [("a.ts", {})] (fun _ _ => none)) := by
  unfold globalEvictionsLast
  decide

/-! ## Generic lemmas about the JS map model -/

theorem anyKey_iff {α : Type} (m : List (String × α)) (k : String) :
    (m.any (fun p => p.1 == k)) = true ↔ k ∈ m.map Prod.fst := by
  rw [List.any_eq_true]
  constructor
  · rintro ⟨p, hp, he⟩
    exact List.mem_map.mpr ⟨p, hp, (beq_iff_eq.mp he).symm ▸ rfl⟩
  · rintro h
    rcases List.mem_map.mp h with ⟨p, hp, he⟩
    exact ⟨p, hp, beq_iff_eq.mpr he⟩

theorem mapSet_key_val {α : Type} (m : List (String × α)) (k : String) (v : α) :
    ∀ p ∈ mapSet m k v, p.1 = k → p.2 = v := by
  unfold mapSet
  by_cases ha : m.any (fun p => p.1 == k) = true
  · rw [if_pos ha]
    intro p hp hk
    rcases List.mem_map.mp hp with ⟨q, hq, he⟩
    by_cases hqk : q.1 = k
    · rw [if_pos (by simp [hqk])] at he
      rw [← he]
    · rw [if_neg (by simp [hqk])] at he
      exact absurd (he ▸ hk) hqk
  · rw [if_neg ha]
    intro p hp hk
    rcases List.mem_append.mp hp with h1 | h2
    · exfalso
      exact ha (List.any_eq_true.mpr ⟨p, h1, beq_iff_eq.mpr hk⟩)
    · rw [List.mem_singleton.mp h2]

theorem mapSet_mem_keys {α : Type} (m : List (String × α)) (k : String) (v : α)
    (k' : String) (h : k' ∈ m.map Prod.fst) : k' ∈ (mapSet m k v).map Prod.fst := by
  unfold mapSet
  by_cases ha : m.any (fun p => p.1 == k) = true
  · rw [if_pos ha]
    rcases List.mem_map.mp h with ⟨p, hp, he⟩
    refine List.mem_map.mpr ⟨if p.1 == k then (k, v) else p, List.mem_map.mpr ⟨p, hp, rfl⟩, ?_⟩
    by_cases hpk : p.1 = k
    · rw [if_pos (by simp [hpk])]
      rw [← he, hpk]
    · rw [if_neg (by simp [hpk]), he]
  · rw [if_neg ha, List.map_append]
    exact List.mem_append_left _ h

theorem mapSet_key_self {α : Type} (m : List (String × α)) (k : String) (v : α) :
    k ∈ (mapSet m k v).map Prod.fst := by
  unfold mapSet
  by_cases ha : m.any (fun p => p.1 == k) = true
  · rw [if_pos ha]
    rcases List.any_eq_true.mp ha with ⟨p, hp, he⟩
    refine List.mem_map.mpr ⟨(k, v), List.mem_map.mpr ⟨p, hp, by rw [if_pos he]⟩, rfl⟩
  · rw [if_neg ha, List.map_append]
    exact List.mem_append_right _ (by simp)

theorem mapSet_forall {α : Type} {P : String × α → Prop} (m : List (String × α))
    (k : String) (v : α) (hm : ∀ p ∈ m, P p) (hv : P (k, v)) :
    ∀ p ∈ mapSet m k v, P p := by
  unfold mapSet
  by_cases ha : m.any (fun p => p.1 == k) = true
  · rw [if_pos ha]
    intro p hp
    rcases List.mem_map.mp hp with ⟨q, hq, he⟩
    by_cases hqk : q.1 = k
    · rw [if_pos (by simp [hqk])] at he
      rw [← he]; exact hv
    · rw [if_neg (by simp [hqk])] at he
      rw [← he]; exact hm q hq
  · rw [if_neg ha]
    intro p hp
    rcases List.mem_append.mp hp with h1 | h2
    · exact hm p h1
    · rw [List.mem_singleton.mp h2]; exact hv

theorem mapSet_nodup_keys {α : Type} (m : List (String × α)) (k : String) (v : α)
    (h : (m.map Prod.fst).Nodup) : ((mapSet m k v).map Prod.fst).Nodup := by
  unfold mapSet
  by_cases ha : m.any (fun p => p.1 == k) = true
  · rw [if_pos ha]
    have : (m.map (fun p => if p.1 == k then (k, v) else p)).map Prod.fst = m.map Prod.fst := by
      rw [List.map_map]
      apply List.map_congr_left
      intro p _
      by_cases hpk : p.1 = k
      · simp only [Function.comp]
        rw [if_pos (by simp [hpk])]
        exact hpk.symm
      · simp only [Function.comp]
        rw [if_neg (by simp [hpk])]
    rw [this]
    exact h
  · rw [if_neg ha, List.map_append]
    refine List.Nodup.append h (by simp) ?_
    intro a hamem hasing
    simp only [List.map_cons, List.map_nil, List.mem_singleton] at hasing
    rw [hasing] at hamem
    exact (ha ((anyKey_iff m k).mpr hamem)).elim

theorem mapSet_eq_self {α : Type} (m : List (String × α)) (k : String) (v : α)
    (hmem : m.any (fun p => p.1 == k) = true)
    (hval : ∀ p ∈ m, p.1 = k → p.2 = v) : mapSet m k v = m := by
  unfold mapSet
  rw [if_pos hmem]
  have : ∀ p ∈ m, (if p.1 == k then (k, v) else p) = p := by
    intro p hp
    by_cases hpk : p.1 = k
    · rw [if_pos (by simp [hpk])]
      have hv := hval p hp hpk
      cases p with
      | mk a b =>
        simp only at hpk hv
        rw [hpk, hv]
    · rw [if_neg (by simp [hpk])]
  calc m.map (fun p => if p.1 == k then (k, v) else p) = m.map id := List.map_congr_left (by simpa using this)
    _ = m := List.map_id m

theorem mapSet_idem {α : Type} (m : List (String × α)) (k : String) (v : α) :
    mapSet (mapSet m k v) k v = mapSet m k v :=
  mapSet_eq_self _ _ _ ((anyKey_iff _ _).mpr (mapSet_key_self m k v)) (mapSet_key_val m k v)

/-! ## Claim C8: duplicate file paths in one batch are harmless -/

theorem seed_inv (g : List Node) (files : List String) (acc : List (String × Node))
    (hinv : ∀ p ∈ acc, g.find? (fun node => fileUrl p.1 == node.url) = some p.2) :
    ∀ p ∈ seedNodesToClean g files acc,
      g.find? (fun node => fileUrl p.1 == node.url) = some p.2 := by
  induction files generalizing acc with
  | nil => exact hinv
  | cons f rest ih =>
    unfold seedNodesToClean
    cases hf : g.find? (fun node => fileUrl f == node.url) with
    | none => exact ih acc hinv
    | some n =>
      refine ih (mapSet acc f n) ?_
      exact mapSet_forall acc f n hinv hf

theorem seed_keys_mono (g : List Node) (files : List String) (acc : List (String × Node))
    (k : String) (h : k ∈ acc.map Prod.fst) :
    k ∈ (seedNodesToClean g files acc).map Prod.fst := by
  induction files generalizing acc with
  | nil => exact h
  | cons f rest ih =>
    unfold seedNodesToClean
    cases hf : g.find? (fun node => fileUrl f == node.url) with
    | none => exact ih acc h
    | some n => exact ih (mapSet acc f n) (mapSet_mem_keys acc f n k h)

theorem seedNodesToClean_cons (g : List Node) (f : String) (rest : List String)
    (acc : List (String × Node)) :
    seedNodesToClean g (f :: rest) acc =
      match g.find? (fun node => fileUrl f == node.url) with
      | none => seedNodesToClean g rest acc
      | some n => seedNodesToClean g rest (mapSet acc f n) := rfl

theorem dedupKeepFirst_nil : dedupKeepFirst [] = [] := by unfold dedupKeepFirst; rfl

theorem dedupKeepFirst_cons (x : String) (xs : List String) :
    dedupKeepFirst (x :: xs) = x :: dedupKeepFirst (xs.filter (fun y => y != x)) := by
  conv_lhs => rw [dedupKeepFirst.eq_def]

theorem seed_skip_none (g : List Node) (x : String) (xs : List String)
    (acc : List (String × Node))
    (hx : g.find? (fun node => fileUrl x == node.url) = none) :
    seedNodesToClean g (xs.filter (fun y => y != x)) acc = seedNodesToClean g xs acc := by
  induction xs generalizing acc with
  | nil => rfl
  | cons y t ih =>
    by_cases hyx : y = x
    · subst hyx
      have hfil : (y :: t).filter (fun z => z != y) = t.filter (fun z => z != y) := by simp
      rw [hfil, seedNodesToClean_cons g y t acc, hx]
      exact ih acc
    · have hfil : (y :: t).filter (fun z => z != x) = y :: t.filter (fun z => z != x) := by
        simp [List.filter_cons, hyx]
      rw [hfil, seedNodesToClean_cons g y t acc, seedNodesToClean_cons g y _ acc]
      cases hf : g.find? (fun node => fileUrl y == node.url) with
      | none => exact ih acc
      | some n => exact ih (mapSet acc y n)

theorem seed_skip_present (g : List Node) (x : String) (xs : List String)
    (acc : List (String × Node))
    (hinv : ∀ p ∈ acc, g.find? (fun node => fileUrl p.1 == node.url) = some p.2)
    (hx : x ∈ acc.map Prod.fst) :
    seedNodesToClean g (xs.filter (fun y => y != x)) acc = seedNodesToClean g xs acc := by
  induction xs generalizing acc with
  | nil => rfl
  | cons y t ih =>
    by_cases hyx : y = x
    · subst hyx
      have hfil : (y :: t).filter (fun z => z != y) = t.filter (fun z => z != y) := by simp
      rw [hfil, seedNodesToClean_cons g y t acc]
      cases hf : g.find? (fun node => fileUrl y == node.url) with
      | none => exact ih acc hinv hx
      | some n =>
        have hms : mapSet acc y n = acc := by
          refine mapSet_eq_self acc y n ((anyKey_iff acc y).mpr hx) ?_
          intro p hp hpk
          have hthis := hinv p hp
          rw [hpk, hf] at hthis
          exact (Option.some.inj hthis).symm
        dsimp only
        rw [hms]
        exact ih acc hinv hx
    · have hfil : (y :: t).filter (fun z => z != x) = y :: t.filter (fun z => z != x) := by
        simp [List.filter_cons, hyx]
      rw [hfil, seedNodesToClean_cons g y t acc, seedNodesToClean_cons g y _ acc]
      cases hf : g.find? (fun node => fileUrl y == node.url) with
      | none => exact ih acc hinv hx
      | some n =>
        exact ih (mapSet acc y n) (mapSet_forall acc y n hinv hf)
          (mapSet_mem_keys acc y n x hx)

theorem seed_dedup (g : List Node) (files : List String) (acc : List (String × Node))
    (hinv : ∀ p ∈ acc, g.find? (fun node => fileUrl p.1 == node.url) = some p.2) :
    seedNodesToClean g files acc = seedNodesToClean g (dedupKeepFirst files) acc := by
  suffices H : ∀ (N : Nat) (fs : List String), fs.length ≤ N →
      ∀ acc : List (String × Node),
        (∀ p ∈ acc, g.find? (fun node => fileUrl p.1 == node.url) = some p.2) →
        seedNodesToClean g fs acc = seedNodesToClean g (dedupKeepFirst fs) acc by
    exact H files.length files le_rfl acc hinv
  intro N
  induction N with
  | zero =>
    intro fs hlen acc _
    rw [List.length_eq_zero.mp (Nat.le_zero.mp hlen), dedupKeepFirst_nil]
  | succ N ihN =>
    intro fs hlen acc hacc
    cases fs with
    | nil => rw [dedupKeepFirst_nil]
    | cons x xs =>
      have hxs : xs.length ≤ N := by simpa using hlen
      have hfl : (xs.filter (fun y => y != x)).length ≤ N :=
        le_trans (List.length_filter_le _ _) hxs
      rw [dedupKeepFirst_cons, seedNodesToClean_cons g x xs acc,
        seedNodesToClean_cons g x _ acc]
      cases hf : g.find? (fun node => fileUrl x == node.url) with
      | none =>
        rw [← seed_skip_none g x xs acc hf]
        exact ihN _ hfl acc hacc
      | some n =>
        have hacc2 := mapSet_forall acc x n hacc hf
        dsimp only
        rw [← seed_skip_present g x xs (mapSet acc x n) hacc2 (mapSet_key_self acc x n)]
        exact ihN _ hfl (mapSet acc x n) hacc2

/-- Claim C8: invalidateEntryPointsAndCacheOnFileChange applied to a file
batch with duplicate paths returns the same result, graph, cache and trace
as applied to the first-occurrence deduplicated batch. -/
theorem invalidate_dedup_idempotent (g : List Node) (files : List String)
    (c : FileCache) (sp : String → List String → Option (List String)) :
    invalidateEntryPointsAndCacheOnFileChange g files c sp =
      invalidateEntryPointsAndCacheOnFileChange g (dedupKeepFirst files) c sp := by
  unfold invalidateEntryPointsAndCacheOnFileChange nodesToCleanState
  rw [seed_dedup g files [] (by intro p hp; cases hp)]

/-! ## Claim C3: worklist termination and key uniqueness -/

theorem find?_fileUrl_spec {g : List Node} {f : String} {n : Node}
    (h : g.find? (fun node => fileUrl f == node.url) = some n) :
    n ∈ g ∧ n.url = fileUrl f := by
  have h1 := List.mem_of_find?_eq_some h
  have h2 := List.find?_some h
  exact ⟨h1, (beq_iff_eq.mp h2).symm⟩

theorem find?_url_spec {g : List Node} {d : String} {n : Node}
    (h : g.find? (fun node => d == node.url) = some n) :
    n ∈ g ∧ n.url = d := by
  have h1 := List.mem_of_find?_eq_some h
  have h2 := List.find?_some h
  exact ⟨h1, (beq_iff_eq.mp h2).symm⟩

theorem seed_wf (g : List Node) (files : List String) (acc : List (String × Node))
    (h : entriesWF g acc) : entriesWF g (seedNodesToClean g files acc) := by
  induction files generalizing acc with
  | nil => exact h
  | cons f rest ih =>
    rw [seedNodesToClean_cons]
    cases hf : g.find? (fun node => fileUrl f == node.url) with
    | none => exact ih acc h
    | some n =>
      exact ih _ ⟨mapSet_nodup_keys _ _ _ h.1,
        mapSet_forall _ _ _ h.2 (find?_fileUrl_spec hf)⟩

theorem addDependeeToClean_shape (g : List Node) (st : List (String × Node) × List String)
    (d : String) :
    addDependeeToClean g st d = st ∨
    ∃ fp dep, fileUrlPath d = some fp ∧ g.find? (fun node => d == node.url) = some dep ∧
      (addDependeeToClean g st d).1 = mapSet st.1 fp dep := by
  unfold addDependeeToClean
  cases hp : fileUrlPath d with
  | none => exact .inl rfl
  | some fp =>
    dsimp only
    by_cases he : fp.data.isEmpty
    · rw [if_pos he]; exact .inl rfl
    · rw [if_neg he]
      cases hf : g.find? (fun node => d == node.url) with
      | none => exact .inl rfl
      | some dep =>
        dsimp only
        by_cases hts : jsEndsWith fp ".ts"
        · rw [if_pos hts]; exact .inr ⟨fp, dep, rfl, rfl, rfl⟩
        · rw [if_neg hts]; exact .inr ⟨fp, dep, rfl, rfl, rfl⟩

theorem addDependeeToClean_wf (g : List Node) (st : List (String × Node) × List String)
    (d : String) (h : entriesWF g st.1) : entriesWF g (addDependeeToClean g st d).1 := by
  rcases addDependeeToClean_shape g st d with hs | ⟨fp, dep, hp, hf, hs⟩
  · rw [hs]; exact h
  · rw [hs]
    obtain ⟨h1, h2⟩ := find?_url_spec hf
    exact ⟨mapSet_nodup_keys _ _ _ h.1,
      mapSet_forall _ _ _ h.2 ⟨h1, by rw [h2, fileUrl_fileUrlPath hp]⟩⟩

theorem foldl_addDependee_wf (g : List Node) (ds : List String) :
    ∀ st : List (String × Node) × List String, entriesWF g st.1 →
      entriesWF g (ds.foldl (addDependeeToClean g) st).1 := by
  induction ds with
  | nil => intro st h; exact h
  | cons d t ih =>
    intro st h
    rw [List.foldl_cons]
    exact ih _ (addDependeeToClean_wf g st d h)

theorem cleanStep_i (g : List Node) (st : CleanState) : (cleanStep g st).i = st.i + 1 := by
  unfold cleanStep
  cases hm : st.entries.get? st.i with
  | none => rfl
  | some p =>
    dsimp only
    by_cases hts : jsEndsWith p.1 ".ts"
    · rw [if_pos hts]
    · rw [if_neg hts]

theorem cleanStep_wf (g : List Node) (st : CleanState) (h : entriesWF g st.entries) :
    entriesWF g (cleanStep g st).entries := by
  unfold cleanStep
  cases hm : st.entries.get? st.i with
  | none => exact h
  | some p =>
    dsimp only
    by_cases hts : jsEndsWith p.1 ".ts"
    · rw [if_pos hts]; exact h
    · rw [if_neg hts]
      exact foldl_addDependee_wf g p.2.dependees
        (st.entries, addToSet st.resources p.1) h

theorem entriesWF_length_le (g : List Node) (E : List (String × Node))
    (h : entriesWF g E) : E.length ≤ g.length := by
  have hurls : (E.map Prod.snd).map Node.url = (E.map Prod.fst).map fileUrl := by
    rw [List.map_map, List.map_map]
    apply List.map_congr_left
    intro p hp
    exact (h.2 p hp).2
  have hnodup_urls : ((E.map Prod.snd).map Node.url).Nodup := by
    rw [hurls]
    exact h.1.map (fun _ _ hab => fileUrl_inj hab)
  have hvals_nodup : (E.map Prod.snd).Nodup := hnodup_urls.of_map
  have hsub : E.map Prod.snd ⊆ g := by
    intro n hn
    rcases List.mem_map.mp hn with ⟨p, hp, he⟩
    exact he ▸ (h.2 p hp).1
  calc E.length = (E.map Prod.snd).length := (List.length_map _ _).symm
    _ ≤ g.length := (List.subperm_of_subset hvals_nodup hsub).length_le

theorem cleanLoop_reaches_end (g : List Node) (fuel : Nat) :
    ∀ st : CleanState, entriesWF g st.entries → g.length + 1 - st.i ≤ fuel →
      (cleanLoop g fuel st).entries.length ≤ (cleanLoop g fuel st).i ∧
      entriesWF g (cleanLoop g fuel st).entries := by
  induction fuel with
  | zero =>
    intro st hwf hb
    have hlen := entriesWF_length_le g _ hwf
    simp only [cleanLoop]
    exact ⟨by omega, hwf⟩
  | succ n ih =>
    intro st hwf hb
    simp only [cleanLoop]
    by_cases hc : st.i < st.entries.length
    · rw [if_pos hc]
      refine ih (cleanStep g st) (cleanStep_wf g st hwf) ?_
      rw [cleanStep_i]
      have hle := entriesWF_length_le g _ hwf
      omega
    · rw [if_neg hc]
      exact ⟨Nat.le_of_not_lt hc, hwf⟩

/-- Claim C3: for every graph, cyclic dependee edges included, the
invalidation worklist terminates: the fuel the engine passes always
reaches the end of the growing to-clean map (the final iteration index
covers every entry), each file path appears at most once among the map
keys, and re-inserting a path into the map is idempotent. -/
theorem invalidate_worklist_terminates (g : List Node) (files : List String)
    (c : FileCache) :
    (nodesToCleanState g files c).entries.length ≤ (nodesToCleanState g files c).i ∧
    ((nodesToCleanState g files c).entries.map Prod.fst).Nodup ∧
    ∀ (m : List (String × Node)) (k : String) (v : Node),
      mapSet (mapSet m k v) k v = mapSet m k v := by
  have hwf0 : entriesWF g (seedNodesToClean g files []) :=
    seed_wf g files [] ⟨List.nodup_nil, by intro p hp; cases hp⟩
  have hmain := cleanLoop_reaches_end g (g.length + 1)
    { entries := seedNodesToClean g files [], i := 0, cache := c,
      resources := [], trace := [] } hwf0 (by omega)
  unfold nodesToCleanState
  exact ⟨hmain.1, hmain.2.1, fun m k v => mapSet_idem m k v⟩

/-! ## Claim C4: return value versus dirty entry points -/

theorem epCleanAnalyses_node_fields (E : List (String × Node)) (ep : Node) :
    (epCleanAnalyses E ep).1.url = ep.url ∧ (epCleanAnalyses E ep).1.state = ep.state ∧
    (epCleanAnalyses E ep).1.entryPoint = ep.entryPoint := by
  unfold epCleanAnalyses
  suffices H : ∀ acc : Node × Bool × List Ev,
      acc.1.url = ep.url → acc.1.state = ep.state → acc.1.entryPoint = ep.entryPoint →
      ((E.foldl (fun acc p =>
        if ep.dependents.contains p.2.url then
          ({ acc.1 with analysesSourcesFileCache :=
              FileCache.delete acc.1.analysesSourcesFileCache p.1 },
           true, acc.2.2 ++ [Ev.evictAnalyses ep.url p.1])
        else acc) acc).1.url = ep.url ∧
       (E.foldl _ acc).1.state = ep.state ∧ (E.foldl _ acc).1.entryPoint = ep.entryPoint) by
    exact H (ep, false, []) rfl rfl rfl
  induction E with
  | nil => intro acc h1 h2 h3; exact ⟨h1, h2, h3⟩
  | cons p t ih =>
    intro acc h1 h2 h3
    rw [List.foldl_cons]
    by_cases hd : ep.dependents.contains p.2.url
    · rw [if_pos hd]
      exact ih _ h1 h2 h3
    · rw [if_neg hd]
      exact ih _ h1 h2 h3

theorem epCleanAnalyses_flag (E : List (String × Node)) (ep : Node) :
    (epCleanAnalyses E ep).2.1 = E.any (fun p => ep.dependents.contains p.2.url) := by
  unfold epCleanAnalyses
  suffices H : ∀ acc : Node × Bool × List Ev,
      (E.foldl (fun acc p =>
        if ep.dependents.contains p.2.url then
          ({ acc.1 with analysesSourcesFileCache :=
              FileCache.delete acc.1.analysesSourcesFileCache p.1 },
           true, acc.2.2 ++ [Ev.evictAnalyses ep.url p.1])
        else acc) acc).2.1 = (acc.2.1 || E.any (fun p => ep.dependents.contains p.2.url)) by
    rw [H (ep, false, [])]
    simp
  induction E with
  | nil => intro acc; simp
  | cons p t ih =>
    intro acc
    rw [List.foldl_cons]
    by_cases hd : ep.dependents.contains p.2.url
    · rw [if_pos hd, ih _, List.any_cons, hd]
      simp
    · rw [if_neg hd, ih acc, List.any_cons, Bool.of_not_eq_true hd]
      simp

theorem epProcess_flag (sp : String → List String → Option (List String))
    (E : List (String × Node)) (R : List String) (ep : Node) :
    (epProcess sp E R ep).2.1 =
      ((if R.length > 0 then
          match sp ep.url R with
          | some affected => affected.length != 0
          | none => false
        else false) || E.any (fun p => ep.dependents.contains p.2.url)) := by
  rw [← epCleanAnalyses_flag]
  unfold epProcess
  cases hb : ((if R.length > 0 then
      match sp ep.url R with
      | some affected => affected.length != 0
      | none => false
    else false) || (epCleanAnalyses E ep).2.1) with
  | true => rw [if_pos hb]
  | false => rw [if_neg (by rw [hb]; exact Bool.false_ne_true)]

theorem epProcess_state (sp : String → List String → Option (List String))
    (E : List (String × Node)) (R : List String) (ep : Node) :
    (epProcess sp E R ep).1.state =
      (if (epProcess sp E R ep).2.1 then STATE_PENDING else ep.state) ∧
    (epProcess sp E R ep).1.url = ep.url := by
  unfold epProcess
  cases hb : ((if R.length > 0 then
      match sp ep.url R with
      | some affected => affected.length != 0
      | none => false
    else false) || (epCleanAnalyses E ep).2.1) with
  | true =>
    rw [if_pos hb]
    exact ⟨rfl, (epCleanAnalyses_node_fields E ep).1⟩
  | false =>
    rw [if_neg (by rw [hb]; exact Bool.false_ne_true)]
    refine ⟨?_, (epCleanAnalyses_node_fields E ep).1⟩
    dsimp only
    rw [if_neg Bool.false_ne_true]
    exact (epCleanAnalyses_node_fields E ep).2.1

theorem epLoop_graph (sp : String → List String → Option (List String))
    (E : List (String × Node)) (R : List String) (l : List Node) :
    (epLoop sp E R l).1 = l.map (fun n => if isEntryPoint n then (epProcess sp E R n).1 else n) := by
  induction l with
  | nil => rfl
  | cons n rest ih =>
    simp only [epLoop, List.map_cons]
    by_cases hn : isEntryPoint n
    · rw [if_pos hn, if_pos hn]
      dsimp only
      rw [ih]
    · rw [if_neg hn, if_neg hn]
      dsimp only
      rw [ih]

theorem epLoop_flag (sp : String → List String → Option (List String))
    (E : List (String × Node)) (R : List String) (l : List Node) :
    (epLoop sp E R l).2.1 = l.any (fun n => isEntryPoint n && (epProcess sp E R n).2.1) := by
  induction l with
  | nil => rfl
  | cons n rest ih =>
    simp only [epLoop, List.any_cons]
    by_cases hn : isEntryPoint n
    · rw [if_pos hn]
      dsimp only
      rw [ih, hn]
      simp
    · rw [if_neg hn]
      dsimp only
      rw [ih]
      have : isEntryPoint n = false := Bool.of_not_eq_true hn
      rw [this]
      simp

theorem epProcess_flag_iff_spec (sp : String → List String → Option (List String))
    (E : List (String × Node)) (R : List String) (ep : Node) :
    (epProcess sp E R ep).2.1 = true ↔ epDirtySpec sp E R ep := by
  rw [epProcess_flag]
  unfold epDirtySpec
  rw [Bool.or_eq_true]
  constructor
  · rintro (h1 | h2)
    · left
      by_cases hR : R.length > 0
      · rw [if_pos hR] at h1
        cases hsp : sp ep.url R with
        | none => rw [hsp] at h1; cases h1
        | some l =>
          rw [hsp] at h1
          exact ⟨hR, l, rfl, by simpa using h1⟩
      · rw [if_neg hR] at h1; cases h1
    · right
      rcases List.any_eq_true.mp h2 with ⟨p, hp, hc⟩
      exact ⟨p, hp, hc⟩
  · rintro (⟨hR, l, hsp, hl⟩ | ⟨p, hp, hc⟩)
    · left
      rw [if_pos hR, hsp]
      simpa using hl
    · right
      exact List.any_eq_true.mpr ⟨p, hp, hc⟩

/-- Claim C4: invalidateEntryPointsAndCacheOnFileChange returns true iff
some entry point is dirty (per the declarative dirty condition: the
stylesheet fan-out reports affected files for a non-empty resource set, or
some node of the final to-clean map is among the entry point's
dependents); every dirty entry point's state becomes STATE_PENDING, and
every other node keeps its prior state. -/
theorem invalidate_true_iff_dirty (g : List Node) (files : List String) (c : FileCache)
    (sp : String → List String → Option (List String)) :
    ((invalidateEntryPointsAndCacheOnFileChange g files c sp).invalidated = true ↔
      ∃ n ∈ g, isEntryPoint n = true ∧
        epDirtySpec sp (nodesToCleanState g files c).entries
          (nodesToCleanState g files c).resources n) ∧
    List.Forall₂ (fun n n' =>
        ((isEntryPoint n = true ∧ epDirtySpec sp (nodesToCleanState g files c).entries
            (nodesToCleanState g files c).resources n) → n'.state = STATE_PENDING) ∧
        (¬ (isEntryPoint n = true ∧ epDirtySpec sp (nodesToCleanState g files c).entries
            (nodesToCleanState g files c).resources n) → n'.state = n.state))
      g (invalidateEntryPointsAndCacheOnFileChange g files c sp).graph := by
  unfold invalidateEntryPointsAndCacheOnFileChange
  dsimp only
  constructor
  · rw [epLoop_flag, List.any_eq_true]
    constructor
    · rintro ⟨n, hn, hb⟩
      rw [Bool.and_eq_true] at hb
      exact ⟨n, hn, hb.1, (epProcess_flag_iff_spec sp _ _ n).mp hb.2⟩
    · rintro ⟨n, hn, h1, h2⟩
      refine ⟨n, hn, ?_⟩
      rw [Bool.and_eq_true]
      exact ⟨h1, (epProcess_flag_iff_spec sp _ _ n).mpr h2⟩
  · rw [epLoop_graph, List.forall₂_map_right_iff, List.forall₂_same]
    intro n hn
    constructor
    · rintro ⟨hEP, hspec⟩
      rw [if_pos hEP]
      have hflag := (epProcess_flag_iff_spec sp (nodesToCleanState g files c).entries
        (nodesToCleanState g files c).resources n).mpr hspec
      rw [(epProcess_state sp _ _ n).1, hflag]
      rfl
    · intro hne
      by_cases hEP : isEntryPoint n = true
      · rw [if_pos hEP]
        have hspec : ¬ epDirtySpec sp (nodesToCleanState g files c).entries
            (nodesToCleanState g files c).resources n := fun hs => hne ⟨hEP, hs⟩
        have hflag : (epProcess sp (nodesToCleanState g files c).entries
            (nodesToCleanState g files c).resources n).2.1 = false := by
          cases hb : (epProcess sp (nodesToCleanState g files c).entries
              (nodesToCleanState g files c).resources n).2.1 with
          | true => exact absurd ((epProcess_flag_iff_spec sp _ _ n).mp hb) hspec
          | false => rfl
        rw [(epProcess_state sp _ _ n).1, hflag]
        rfl
      · rw [if_neg hEP]

/-! ## Claim C2: transitive resource fan-out -/

theorem nodes_eq_of_url {g : List Node} (hg : (g.map Node.url).Nodup)
    {n1 n2 : Node} (h1 : n1 ∈ g) (h2 : n2 ∈ g) (he : n1.url = n2.url) : n1 = n2 :=
  List.inj_on_of_nodup_map hg h1 h2 he

theorem find?_url_of_mem {g : List Node} (hg : (g.map Node.url).Nodup)
    {n : Node} (hn : n ∈ g) {u : String} (hu : n.url = u) :
    g.find? (fun node => u == node.url) = some n := by
  induction g with
  | nil => cases hn
  | cons x rest ih =>
    have hxnot : x.url ∉ rest.map Node.url := (List.nodup_cons.mp hg).1
    have hgrest : (rest.map Node.url).Nodup := (List.nodup_cons.mp hg).2
    rcases List.mem_cons.mp hn with he | hr
    · subst he
      exact List.find?_cons_of_pos _ (by simp [hu])
    · have hne : ¬ (u = x.url) := by
        intro hequ
        exact hxnot (List.mem_map.mpr ⟨n, hr, by rw [hu]; exact hequ⟩)
      rw [List.find?_cons_of_neg _ (by simp [hne])]
      exact ih hgrest hr

theorem mapSet_extends {α : Type} (m : List (String × α)) (k : String) (v : α)
    (hval : ∀ p ∈ m, p.1 = k → p.2 = v) :
    mapSet m k v = m ∨ mapSet m k v = m ++ [(k, v)] := by
  by_cases ha : m.any (fun p => p.1 == k) = true
  · exact .inl (mapSet_eq_self m k v ha hval)
  · right
    unfold mapSet
    rw [if_neg ha]

theorem addDependeeToClean_extends (g : List Node) (hg : (g.map Node.url).Nodup)
    (st : List (String × Node) × List String) (d : String) (hwf : entriesWF g st.1) :
    (addDependeeToClean g st d).1 = st.1 ∨
    ∃ fp dep, fileUrlPath d = some fp ∧
      (addDependeeToClean g st d).1 = st.1 ++ [(fp, dep)] := by
  rcases addDependeeToClean_shape g st d with hs | ⟨fp, dep, hp, hf, hs⟩
  · rw [hs]; exact .inl rfl
  · obtain ⟨hdepg, hdepurl⟩ := find?_url_spec hf
    have hdep_fp : dep.url = fileUrl fp := by
      rw [hdepurl, ← fileUrl_fileUrlPath hp]
    have hval : ∀ q ∈ st.1, q.1 = fp → q.2 = dep := by
      intro q hq hqk
      obtain ⟨hqg, hqurl⟩ := hwf.2 q hq
      refine nodes_eq_of_url hg hqg hdepg ?_
      rw [hqurl, hqk, hdep_fp]
    rcases mapSet_extends st.1 fp dep hval with h1 | h2
    · rw [hs, h1]; exact .inl rfl
    · right
      exact ⟨fp, dep, hp, by rw [hs, h2]⟩

theorem foldl_addDependee_extends (g : List Node) (hg : (g.map Node.url).Nodup)
    (ds : List String) :
    ∀ st : List (String × Node) × List String, entriesWF g st.1 →
      ∃ T, (ds.foldl (addDependeeToClean g) st).1 = st.1 ++ T := by
  induction ds with
  | nil => intro st _; exact ⟨[], (List.append_nil _).symm⟩
  | cons d t ih =>
    intro st h
    rw [List.foldl_cons]
    obtain ⟨T1, hds⟩ := ih (addDependeeToClean g st d) (addDependeeToClean_wf g st d h)
    rcases addDependeeToClean_extends g hg st d h with h1 | ⟨fp, dep, _, h2⟩
    · rw [hds, h1]; exact ⟨T1, rfl⟩
    · rw [hds, h2]
      exact ⟨[(fp, dep)] ++ T1, List.append_assoc _ _ _⟩

theorem foldl_addDependee_complete (g : List Node) (hg : (g.map Node.url).Nodup)
    (ds : List String) :
    ∀ st : List (String × Node) × List String, entriesWF g st.1 →
      ∀ d ∈ ds, ∀ fp, fileUrlPath d = some fp → fp.data.isEmpty = false →
        ∀ dep, g.find? (fun node => d == node.url) = some dep →
          fp ∈ (ds.foldl (addDependeeToClean g) st).1.map Prod.fst := by
  induction ds with
  | nil => intro st _ d hd; cases hd
  | cons d0 t ih =>
    intro st h d hd fp hfp hne dep hfind
    rw [List.foldl_cons]
    rcases List.mem_cons.mp hd with he | ht
    · subst he
      have hkey : fp ∈ (addDependeeToClean g st d).1.map Prod.fst := by
        unfold addDependeeToClean
        rw [hfp]
        dsimp only
        rw [if_neg (by rw [hne]; exact Bool.false_ne_true), hfind]
        dsimp only
        by_cases hts : jsEndsWith fp ".ts"
        · rw [if_pos hts]; exact mapSet_key_self _ _ _
        · rw [if_neg hts]; exact mapSet_key_self _ _ _
      obtain ⟨T, hT⟩ := foldl_addDependee_extends g hg t (addDependeeToClean g st d)
        (addDependeeToClean_wf g st d h)
      rw [hT, List.map_append]
      exact List.mem_append_left _ hkey
    · exact ih (addDependeeToClean g st d0) (addDependeeToClean_wf g st d0 h)
        d ht fp hfp hne dep hfind

theorem cleanStep_entries_of_none (g : List Node) (st : CleanState)
    (hm : st.entries.get? st.i = none) : (cleanStep g st).entries = st.entries := by
  unfold cleanStep
  rw [hm]

theorem cleanStep_entries_of_ts (g : List Node) (st : CleanState) (p : String × Node)
    (hm : st.entries.get? st.i = some p) (hts : jsEndsWith p.1 ".ts" = true) :
    (cleanStep g st).entries = st.entries := by
  unfold cleanStep
  rw [hm]
  dsimp only
  rw [if_pos hts]

theorem cleanStep_entries_of_some (g : List Node) (st : CleanState) (p : String × Node)
    (hm : st.entries.get? st.i = some p) (hts : jsEndsWith p.1 ".ts" = false) :
    (cleanStep g st).entries =
      (p.2.dependees.foldl (addDependeeToClean g)
        (st.entries, addToSet st.resources p.1)).1 := by
  unfold cleanStep
  rw [hm]
  dsimp only
  rw [if_neg (by rw [hts]; exact Bool.false_ne_true)]

theorem cleanStep_extends (g : List Node) (hg : (g.map Node.url).Nodup) (st : CleanState)
    (hwf : entriesWF g st.entries) :
    ∃ T, (cleanStep g st).entries = st.entries ++ T := by
  cases hm : st.entries.get? st.i with
  | none => exact ⟨[], by rw [cleanStep_entries_of_none g st hm, List.append_nil]⟩
  | some p =>
    by_cases hts : jsEndsWith p.1 ".ts"
    · exact ⟨[], by rw [cleanStep_entries_of_ts g st p hm hts, List.append_nil]⟩
    · have htsf : jsEndsWith p.1 ".ts" = false := Bool.of_not_eq_true hts
      obtain ⟨T, hT⟩ := foldl_addDependee_extends g hg p.2.dependees
        (st.entries, addToSet st.resources p.1) hwf
      exact ⟨T, by rw [cleanStep_entries_of_some g st p hm htsf]; exact hT⟩

theorem cleanStep_processedClosed (g : List Node) (hg : (g.map Node.url).Nodup)
    (st : CleanState) (hwf : entriesWF g st.entries) (hil : st.i ≤ st.entries.length)
    (hpc : processedClosed g st) : processedClosed g (cleanStep g st) := by
  intro j hj q hq hqts d hd fp hfp hne dep hfind
  rw [cleanStep_i] at hj
  cases hm : st.entries.get? st.i with
  | none =>
    rw [cleanStep_entries_of_none g st hm] at hq ⊢
    rcases Nat.lt_succ_iff_lt_or_eq.mp hj with hlt | heq
    · exact hpc j hlt q hq hqts d hd fp hfp hne dep hfind
    · rw [heq, hm] at hq; cases hq
  | some p =>
    by_cases hts : jsEndsWith p.1 ".ts"
    · rw [cleanStep_entries_of_ts g st p hm hts] at hq ⊢
      rcases Nat.lt_succ_iff_lt_or_eq.mp hj with hlt | heq
      · exact hpc j hlt q hq hqts d hd fp hfp hne dep hfind
      · rw [heq, hm] at hq
        injection hq with hpq
        rw [hpq] at hts
        rw [hqts] at hts
        cases hts
    · have htsf : jsEndsWith p.1 ".ts" = false := Bool.of_not_eq_true hts
      have hchar := cleanStep_entries_of_some g st p hm htsf
      obtain ⟨T, hT⟩ := foldl_addDependee_extends g hg p.2.dependees
        (st.entries, addToSet st.resources p.1) hwf
      rcases Nat.lt_succ_iff_lt_or_eq.mp hj with hlt | heq
      · have hjlen : j < st.entries.length := lt_of_lt_of_le hlt hil
        rw [hchar, hT] at hq
        rw [List.get?_append hjlen] at hq
        have hmem := hpc j hlt q hq hqts d hd fp hfp hne dep hfind
        rw [hchar, hT, List.map_append]
        exact List.mem_append_left _ hmem
      · obtain ⟨hilen, _⟩ := List.get?_eq_some.mp hm
        rw [hchar, hT, heq, List.get?_append hilen, hm] at hq
        injection hq with hpq
        rw [← hpq] at hd
        rw [hchar]
        exact foldl_addDependee_complete g hg p.2.dependees
          (st.entries, addToSet st.resources p.1) hwf d hd fp hfp hne dep hfind

theorem cleanLoop_invariants (g : List Node) (hg : (g.map Node.url).Nodup) (fuel : Nat) :
    ∀ st : CleanState, entriesWF g st.entries → st.i ≤ st.entries.length →
      processedClosed g st →
      entriesWF g (cleanLoop g fuel st).entries ∧
      (cleanLoop g fuel st).i ≤ (cleanLoop g fuel st).entries.length ∧
      processedClosed g (cleanLoop g fuel st) := by
  induction fuel with
  | zero =>
    intro st h1 h2 h3
    exact ⟨h1, h2, h3⟩
  | succ n ih =>
    intro st h1 h2 h3
    simp only [cleanLoop]
    by_cases hc : st.i < st.entries.length
    · rw [if_pos hc]
      obtain ⟨T, hT⟩ := cleanStep_extends g hg st h1
      refine ih (cleanStep g st) (cleanStep_wf g st h1) ?_
        (cleanStep_processedClosed g hg st h1 h2 h3)
      rw [cleanStep_i, hT, List.length_append]
      omega
    · rw [if_neg hc]
      exact ⟨h1, h2, h3⟩

theorem cleanLoop_extends (g : List Node) (hg : (g.map Node.url).Nodup) (fuel : Nat) :
    ∀ st : CleanState, entriesWF g st.entries →
      ∃ T, (cleanLoop g fuel st).entries = st.entries ++ T := by
  induction fuel with
  | zero => intro st _; exact ⟨[], (List.append_nil _).symm⟩
  | succ n ih =>
    intro st h1
    simp only [cleanLoop]
    by_cases hc : st.i < st.entries.length
    · rw [if_pos hc]
      obtain ⟨T1, hT1⟩ := cleanStep_extends g hg st h1
      obtain ⟨T2, hT2⟩ := ih (cleanStep g st) (cleanStep_wf g st h1)
      rw [hT2, hT1]
      exact ⟨T1 ++ T2, List.append_assoc _ _ _⟩
    · rw [if_neg hc]
      exact ⟨[], (List.append_nil _).symm⟩

theorem nodesToCleanState_wf (g : List Node) (files : List String) (c : FileCache) :
    entriesWF g (nodesToCleanState g files c).entries := by
  have hwf0 : entriesWF g (seedNodesToClean g files []) :=
    seed_wf g files [] ⟨List.nodup_nil, by intro p hp; cases hp⟩
  exact (cleanLoop_reaches_end g (g.length + 1)
    { entries := seedNodesToClean g files [], i := 0, cache := c,
      resources := [], trace := [] } hwf0 (by omega)).2

theorem nodesToCleanState_extends (g : List Node) (hg : (g.map Node.url).Nodup)
    (files : List String) (c : FileCache) :
    ∃ T, (nodesToCleanState g files c).entries = seedNodesToClean g files [] ++ T := by
  have hwf0 : entriesWF g (seedNodesToClean g files []) :=
    seed_wf g files [] ⟨List.nodup_nil, by intro p hp; cases hp⟩
  exact cleanLoop_extends g hg (g.length + 1)
    { entries := seedNodesToClean g files [], i := 0, cache := c,
      resources := [], trace := [] } hwf0

theorem nodesToCleanState_closed (g : List Node) (hg : (g.map Node.url).Nodup)
    (files : List String) (c : FileCache) :
    ∀ q ∈ (nodesToCleanState g files c).entries, jsEndsWith q.1 ".ts" = false →
      ∀ d ∈ q.2.dependees, ∀ fp, fileUrlPath d = some fp → fp.data.isEmpty = false →
        ∀ dep, g.find? (fun node => d == node.url) = some dep →
          fp ∈ (nodesToCleanState g files c).entries.map Prod.fst := by
  intro q hq hqts d hd fp hfp hne dep hfind
  have hwf0 : entriesWF g (seedNodesToClean g files []) :=
    seed_wf g files [] ⟨List.nodup_nil, by intro p hp; cases hp⟩
  have hterm := cleanLoop_reaches_end g (g.length + 1)
    { entries := seedNodesToClean g files [], i := 0, cache := c,
      resources := [], trace := [] } hwf0 (by omega)
  have hinv := cleanLoop_invariants g hg (g.length + 1)
    { entries := seedNodesToClean g files [], i := 0, cache := c,
      resources := [], trace := [] } hwf0 (by simp) (by intro j hj; cases hj)
  obtain ⟨j, hj⟩ := List.mem_iff_get?.mp hq
  obtain ⟨hjlen, _⟩ := List.get?_eq_some.mp hj
  have hji : j < (nodesToCleanState g files c).i := lt_of_lt_of_le hjlen hterm.1
  exact hinv.2.2 j hji q hj hqts d hd fp hfp hne dep hfind

theorem entries_lookup (g : List Node) (hg : (g.map Node.url).Nodup)
    (E : List (String × Node)) (hwf : entriesWF g E) {k : String} {n : Node}
    (hk : k ∈ E.map Prod.fst) (hn : n ∈ g) (hurl : n.url = fileUrl k) : (k, n) ∈ E := by
  rcases List.mem_map.mp hk with ⟨q, hq, hqk⟩
  obtain ⟨hqg, hqurl⟩ := hwf.2 q hq
  have hnq : q.2 = n := by
    refine nodes_eq_of_url hg hqg hn ?_
    rw [hqurl, hqk, hurl]
  have hkq : (k, n) = q := by
    rw [← hqk, ← hnq]
  rw [hkq]
  exact hq

theorem seed_mem_key (g : List Node) (files : List String) {f : String} {n : Node}
    (hf : f ∈ files) (hfind : g.find? (fun node => fileUrl f == node.url) = some n) :
    ∀ acc, f ∈ (seedNodesToClean g files acc).map Prod.fst := by
  induction files with
  | nil => cases hf
  | cons x rest ih =>
    intro acc
    rw [seedNodesToClean_cons]
    rcases List.mem_cons.mp hf with he | hr
    · subst he
      rw [hfind]
      dsimp only
      exact seed_keys_mono g rest _ f (mapSet_key_self acc f n)
    · cases hx : g.find? (fun node => fileUrl x == node.url) with
      | none => exact ih hr acc
      | some m => exact ih hr (mapSet acc x m)

/-- Claim C2: transitive resource fan-out. For a graph in which a non-ts
node P has a non-ts dependee S whose dependees include T, invalidating the
batch containing only P's path pulls S and, transitively, every resolvable
dependee of S into the to-clean map, so an entry point depending on S (or
on the ts dependee T of S) is marked dirty and set to STATE_PENDING even
though it never directly referenced P. -/
theorem resource_fanout_transitive (g : List Node) (c : FileCache)
    (sp : String → List String → Option (List String))
    (P S T ep : Node) (p s t : String)
    (hg : (g.map Node.url).Nodup)
    (hP : P ∈ g) (hPurl : P.url = fileUrl p) (hpts : jsEndsWith p ".ts" = false)
    (hS : S ∈ g) (hSurl : S.url = fileUrl s) (hsts : jsEndsWith s ".ts" = false)
    (hs0 : s.data.isEmpty = false) (hSdep : S.url ∈ P.dependees)
    (hT : T ∈ g) (hTurl : T.url = fileUrl t) (ht0 : t.data.isEmpty = false)
    (hTdep : T.url ∈ S.dependees)
    (hep : ep ∈ g) (hepEP : isEntryPoint ep = true)
    (hepdep : S.url ∈ ep.dependents ∨ T.url ∈ ep.dependents) :
    s ∈ (nodesToCleanState g [p] c).entries.map Prod.fst ∧
    (∀ d ∈ S.dependees, ∀ q, fileUrlPath d = some q → q.data.isEmpty = false →
      (∃ D ∈ g, D.url = d) → q ∈ (nodesToCleanState g [p] c).entries.map Prod.fst) ∧
    (invalidateEntryPointsAndCacheOnFileChange g [p] c sp).invalidated = true ∧
    (∀ n' ∈ (invalidateEntryPointsAndCacheOnFileChange g [p] c sp).graph,
      n'.url = ep.url → n'.state = STATE_PENDING) := by
  have hwfF := nodesToCleanState_wf g [p] c
  have hfindP : g.find? (fun node => fileUrl p == node.url) = some P :=
    find?_url_of_mem hg hP hPurl
  have hpseed : p ∈ (seedNodesToClean g [p] []).map Prod.fst :=
    seed_mem_key g [p] (List.mem_singleton_self p) hfindP []
  have hpkeyF : p ∈ (nodesToCleanState g [p] c).entries.map Prod.fst := by
    obtain ⟨T1, hT1⟩ := nodesToCleanState_extends g hg [p] c
    rw [hT1, List.map_append]
    exact List.mem_append_left _ hpseed
  have hPmem : (p, P) ∈ (nodesToCleanState g [p] c).entries :=
    entries_lookup g hg _ hwfF hpkeyF hP hPurl
  have hskey : s ∈ (nodesToCleanState g [p] c).entries.map Prod.fst := by
    refine nodesToCleanState_closed g hg [p] c (p, P) hPmem hpts S.url hSdep s ?_ hs0 S
      (find?_url_of_mem hg hS rfl)
    rw [hSurl]
    exact fileUrlPath_fileUrl s
  have hSmem : (s, S) ∈ (nodesToCleanState g [p] c).entries :=
    entries_lookup g hg _ hwfF hskey hS hSurl
  have hdeps : ∀ d ∈ S.dependees, ∀ q, fileUrlPath d = some q → q.data.isEmpty = false →
      (∃ D ∈ g, D.url = d) → q ∈ (nodesToCleanState g [p] c).entries.map Prod.fst := by
    rintro d hd q hq hqe ⟨D, hD, hDurl⟩
    exact nodesToCleanState_closed g hg [p] c (s, S) hSmem hsts d hd q hq hqe D
      (find?_url_of_mem hg hD hDurl)
  have htkey : t ∈ (nodesToCleanState g [p] c).entries.map Prod.fst := by
    refine hdeps T.url hTdep t ?_ ht0 ⟨T, hT, rfl⟩
    rw [hTurl]
    exact fileUrlPath_fileUrl t
  have hTmem : (t, T) ∈ (nodesToCleanState g [p] c).entries :=
    entries_lookup g hg _ hwfF htkey hT hTurl
  have hspec : epDirtySpec sp (nodesToCleanState g [p] c).entries
      (nodesToCleanState g [p] c).resources ep := by
    right
    rcases hepdep with hin | hin
    · exact ⟨(s, S), hSmem, List.elem_iff.mpr hin⟩
    · exact ⟨(t, T), hTmem, List.elem_iff.mpr hin⟩
  have hflag : (epProcess sp (nodesToCleanState g [p] c).entries
      (nodesToCleanState g [p] c).resources ep).2.1 = true :=
    (epProcess_flag_iff_spec sp _ _ ep).mpr hspec
  refine ⟨hskey, hdeps, ?_, ?_⟩
  · unfold invalidateEntryPointsAndCacheOnFileChange
    dsimp only
    rw [epLoop_flag, List.any_eq_true]
    refine ⟨ep, hep, ?_⟩
    rw [Bool.and_eq_true]
    exact ⟨hepEP, hflag⟩
  · intro n' hn' hurl
    unfold invalidateEntryPointsAndCacheOnFileChange at hn'
    dsimp only at hn'
    rw [epLoop_graph] at hn'
    rcases List.mem_map.mp hn' with ⟨m, hm, hmn⟩
    have hmurl : m.url = ep.url := by
      by_cases hme : isEntryPoint m
      · rw [if_pos hme] at hmn
        rw [← hurl, ← hmn]
        exact ((epProcess_state sp _ _ m).2).symm
      · rw [if_neg hme] at hmn
        rw [← hurl, ← hmn]
    have hmep : m = ep := nodes_eq_of_url hg hm hep hmurl
    subst hmep
    rw [if_pos hepEP] at hmn
    rw [← hmn, (epProcess_state sp _ _ m).1, hflag]
    rfl

/-- Witness for C2 at the fixture graph: changing the partial p.scss pulls
s.scss into the to-clean map and invalidates the entry point. -/
theorem resource_fanout_transitive_witness :
    "s.scss" ∈ (nodesToCleanState exGraph ["p.scss"] []).entries.map Prod.fst ∧
    (invalidateEntryPointsAndCacheOnFileChange exGraph ["p.scss"] []
      (fun _ _ => none)).invalidated = true := by
  have h := resource_fanout_transitive exGraph [] (fun _ _ => none) exP exS exT exEP
    "p.scss" "s.scss" "t.ts" (by decide) (by decide) (by decide) (by decide) (by decide)
    (by decide) (by decide) (by decide) (by decide) (by decide) (by decide) (by decide)
    (by decide) (by decide) (by decide) (by decide)
  exact ⟨h.1, h.2.2.1⟩

/-! ## Claim C9: graph-edge lemmas for the readResource stylesheet path -/

theorem find?_url_spec2 {g : List Node} {u : String} {n : Node}
    (h : g.find? (fun x => x.url == u) = some n) : n ∈ g ∧ n.url = u := by
  have h1 := List.mem_of_find?_eq_some h
  have h2 := List.find?_some h
  exact ⟨h1, beq_iff_eq.mp h2⟩

theorem find?_url_of_mem2 {g : List Node} (hg : (g.map Node.url).Nodup)
    {n : Node} (hn : n ∈ g) {u : String} (hu : n.url = u) :
    g.find? (fun x => x.url == u) = some n := by
  induction g with
  | nil => cases hn
  | cons x rest ih =>
    have hxnot : x.url ∉ rest.map Node.url := (List.nodup_cons.mp hg).1
    have hgrest : (rest.map Node.url).Nodup := (List.nodup_cons.mp hg).2
    rcases List.mem_cons.mp hn with he | hr
    · subst he
      exact List.find?_cons_of_pos _ (by simp [hu])
    · have hne : ¬ (x.url = u) := by
        intro hequ
        exact hxnot (List.mem_map.mpr ⟨n, hr, by rw [hu, hequ]⟩)
      rw [List.find?_cons_of_neg _ (by simp [hne])]
      exact ih hgrest hr

theorem find?_append_some {α : Type} {p : α → Bool} {l1 : List α} {a : α} (l2 : List α)
    (h : l1.find? p = some a) : (l1 ++ l2).find? p = some a := by
  induction l1 with
  | nil => cases h
  | cons x t ih =>
    by_cases hx : p x
    · rw [List.find?_cons_of_pos _ hx] at h
      rw [List.cons_append, List.find?_cons_of_pos _ hx]
      exact h
    · have hx' : p x = false := Bool.of_not_eq_true hx
      rw [List.find?_cons_of_neg _ hx] at h
      rw [List.cons_append, List.find?_cons_of_neg _ hx]
      exact ih h

theorem find?_url_map (g : List Node) (f : Node → Node) (hf : ∀ n, (f n).url = n.url)
    (u : String) :
    (g.map f).find? (fun x => x.url == u) = (g.find? (fun x => x.url == u)).map f := by
  induction g with
  | nil => rfl
  | cons x rest ih =>
    rw [List.map_cons]
    by_cases hx : (x.url == u) = true
    · have h1 : (f x :: rest.map f).find? (fun x => x.url == u) = some (f x) :=
        List.find?_cons_of_pos _ (by show ((f x).url == u) = true; rw [hf]; exact hx)
      have h2 : (x :: rest).find? (fun x => x.url == u) = some x :=
        List.find?_cons_of_pos _ hx
      rw [h1, h2]
      rfl
    · have h1 : (f x :: rest.map f).find? (fun x => x.url == u) =
          (rest.map f).find? (fun x => x.url == u) :=
        List.find?_cons_of_neg _ (by show ¬ ((f x).url == u) = true; rw [hf]; exact hx)
      have h2 : (x :: rest).find? (fun x => x.url == u) = rest.find? (fun x => x.url == u) :=
        List.find?_cons_of_neg _ hx
      rw [h1, h2, ih]

theorem edgeUpd_url (a b : String) (n : Node) : (edgeUpd a b n).url = n.url := by
  unfold edgeUpd
  dsimp only
  by_cases h1 : (n.url == a) = true
  · rw [if_pos h1]
    by_cases h2 : ((({ n with dependents := addToSet n.dependents b } : Node)).url == b) = true
    · rw [if_pos h2]
    · rw [if_neg h2]
  · rw [if_neg h1]
    by_cases h2 : (n.url == b) = true
    · rw [if_pos h2]
    · rw [if_neg h2]

theorem edgeUpd_dependents_self (a b : String) (n : Node) (h : n.url = a) :
    (edgeUpd a b n).dependents = addToSet n.dependents b := by
  unfold edgeUpd
  dsimp only
  have hn1 : (if (n.url == a) = true then
      ({ n with dependents := addToSet n.dependents b } : Node) else n) =
      { n with dependents := addToSet n.dependents b } := if_pos (by simp [h])
  rw [hn1]
  by_cases h2 : ((({ n with dependents := addToSet n.dependents b } : Node)).url == b) = true
  · rw [if_pos h2]
  · rw [if_neg h2]

theorem edgeUpd_dependents_other (a b : String) (n : Node) (h : ¬ n.url = a) :
    (edgeUpd a b n).dependents = n.dependents := by
  unfold edgeUpd
  dsimp only
  have hn1 : (if (n.url == a) = true then
      ({ n with dependents := addToSet n.dependents b } : Node) else n) = n :=
    if_neg (by simp [h])
  rw [hn1]
  by_cases h2 : (n.url == b) = true
  · rw [if_pos h2]
  · rw [if_neg h2]

theorem edgeUpd_dependees_self (a b : String) (n : Node) (h : n.url = b) :
    (edgeUpd a b n).dependees = addToSet n.dependees a := by
  unfold edgeUpd
  dsimp only
  by_cases h1 : (n.url == a) = true
  · have hn1 : (if (n.url == a) = true then
        ({ n with dependents := addToSet n.dependents b } : Node) else n) =
        { n with dependents := addToSet n.dependents b } := if_pos h1
    rw [hn1]
    rw [if_pos (show ((({ n with dependents := addToSet n.dependents b } : Node)).url == b) = true by simp [h])]
  · have hn1 : (if (n.url == a) = true then
        ({ n with dependents := addToSet n.dependents b } : Node) else n) = n :=
      if_neg h1
    rw [hn1]
    rw [if_pos (show (n.url == b) = true by simp [h])]

theorem edgeUpd_dependees_other (a b : String) (n : Node) (h : ¬ n.url = b) :
    (edgeUpd a b n).dependees = n.dependees := by
  unfold edgeUpd
  dsimp only
  by_cases h1 : (n.url == a) = true
  · have hn1 : (if (n.url == a) = true then
        ({ n with dependents := addToSet n.dependents b } : Node) else n) =
        { n with dependents := addToSet n.dependents b } := if_pos h1
    rw [hn1]
    rw [if_neg (show ¬ ((({ n with dependents := addToSet n.dependents b } : Node)).url == b) = true by simp [h])]
  · have hn1 : (if (n.url == a) = true then
        ({ n with dependents := addToSet n.dependents b } : Node) else n) = n :=
      if_neg h1
    rw [hn1]
    rw [if_neg (show ¬ (n.url == b) = true by simp [h])]

theorem graphAddEdge_urls (g : List Node) (a b : String) :
    (graphAddEdge g a b).map Node.url = g.map Node.url := by
  unfold graphAddEdge
  rw [List.map_map]
  apply List.map_congr_left
  intro n _
  exact edgeUpd_url a b n

theorem graphAddEdge_find? (g : List Node) (a b u : String) :
    (graphAddEdge g a b).find? (fun x => x.url == u) =
      (g.find? (fun x => x.url == u)).map (edgeUpd a b) := by
  unfold graphAddEdge
  exact find?_url_map g (edgeUpd a b) (edgeUpd_url a b) u

theorem addToSet_mem_mono {s : List String} {x : String} (y : String) (h : x ∈ s) :
    x ∈ addToSet s y := by
  unfold addToSet
  by_cases hc : s.contains y
  · rw [if_pos hc]; exact h
  · rw [if_neg hc]; exact List.mem_append_left _ h

theorem addToSet_mem_self (s : List String) (x : String) : x ∈ addToSet s x := by
  unfold addToSet
  by_cases hc : s.contains x
  · rw [if_pos hc]; exact List.elem_iff.mp hc
  · rw [if_neg hc]; exact List.mem_append_right _ (by simp)

theorem urlDependents_addEdge_self (g : List Node) (a b : String) {n : Node}
    (h : g.find? (fun x => x.url == a) = some n) :
    urlDependents (graphAddEdge g a b) a = addToSet n.dependents b := by
  unfold urlDependents
  rw [graphAddEdge_find?, h, Option.map_some']
  exact edgeUpd_dependents_self a b n (find?_url_spec2 h).2

theorem urlDependents_addEdge_other (g : List Node) (a b u : String) (hne : u ≠ a) :
    urlDependents (graphAddEdge g a b) u = urlDependents g u := by
  unfold urlDependents
  rw [graphAddEdge_find?]
  cases h : g.find? (fun x => x.url == u) with
  | none => rfl
  | some n =>
    rw [Option.map_some']
    exact edgeUpd_dependents_other a b n (by rw [(find?_url_spec2 h).2]; exact hne)

theorem urlDependees_addEdge_self (g : List Node) (a b : String) {n : Node}
    (h : g.find? (fun x => x.url == b) = some n) :
    urlDependees (graphAddEdge g a b) b = addToSet n.dependees a := by
  unfold urlDependees
  rw [graphAddEdge_find?, h, Option.map_some']
  exact edgeUpd_dependees_self a b n (find?_url_spec2 h).2

theorem urlDependees_addEdge_other (g : List Node) (a b u : String) (hne : u ≠ b) :
    urlDependees (graphAddEdge g a b) u = urlDependees g u := by
  unfold urlDependees
  rw [graphAddEdge_find?]
  cases h : g.find? (fun x => x.url == u) with
  | none => rfl
  | some n =>
    rw [Option.map_some']
    exact edgeUpd_dependees_other a b n (by rw [(find?_url_spec2 h).2]; exact hne)

theorem graphDependsOn_urls (g : List Node) (a : String) (ds : List String) :
    (graphDependsOn g a ds).map Node.url = g.map Node.url := by
  unfold graphDependsOn
  induction ds generalizing g with
  | nil => rfl
  | cons d t ih =>
    rw [List.foldl_cons, ih, graphAddEdge_urls]

theorem urlDependents_dependsOn_other (g : List Node) (a : String) (ds : List String)
    (u : String) (hne : u ≠ a) :
    urlDependents (graphDependsOn g a ds) u = urlDependents g u := by
  unfold graphDependsOn
  induction ds generalizing g with
  | nil => rfl
  | cons d t ih =>
    rw [List.foldl_cons, ih, urlDependents_addEdge_other g a d u hne]

theorem urlDependees_dependsOn_other (g : List Node) (a : String) (ds : List String)
    (u : String) (hu : u ∉ ds) :
    urlDependees (graphDependsOn g a ds) u = urlDependees g u := by
  unfold graphDependsOn
  induction ds generalizing g with
  | nil => rfl
  | cons d t ih =>
    have hu1 : u ≠ d := fun he => hu (he ▸ List.mem_cons_self d t)
    have hu2 : u ∉ t := fun ht => hu (List.mem_cons_of_mem d ht)
    rw [List.foldl_cons, ih _ hu2, urlDependees_addEdge_other g a d u hu1]

theorem mem_urlDependents_addEdge_mono (g : List Node) (a b u x : String)
    (h : x ∈ urlDependents g u) : x ∈ urlDependents (graphAddEdge g a b) u := by
  by_cases hua : u = a
  · subst hua
    cases hf : g.find? (fun y => y.url == u) with
    | none => unfold urlDependents at h; rw [hf] at h; cases h
    | some n =>
      rw [urlDependents_addEdge_self g u b hf]
      unfold urlDependents at h
      rw [hf] at h
      exact addToSet_mem_mono b h
  · rw [urlDependents_addEdge_other g a b u hua]
    exact h

theorem mem_urlDependents_dependsOn_mono (g : List Node) (a : String) (ds : List String)
    (u x : String) (h : x ∈ urlDependents g u) :
    x ∈ urlDependents (graphDependsOn g a ds) u := by
  unfold graphDependsOn
  induction ds generalizing g with
  | nil => exact h
  | cons d t ih =>
    rw [List.foldl_cons]
    exact ih _ (mem_urlDependents_addEdge_mono g a d u x h)

theorem mem_dependsOn_self (g : List Node) (a : String) (ds : List String)
    (hmem : ∃ n ∈ g, n.url = a) :
    ∀ d ∈ ds, d ∈ urlDependents (graphDependsOn g a ds) a := by
  induction ds generalizing g with
  | nil => intro d hd; cases hd
  | cons d0 t ih =>
    intro d hd
    unfold graphDependsOn
    rw [List.foldl_cons]
    obtain ⟨n, hn, hnu⟩ := hmem
    have hfind : ∃ m, g.find? (fun y => y.url == a) = some m := by
      have hsome : (g.find? (fun y => y.url == a)).isSome := by
        rw [List.find?_isSome]
        exact ⟨n, hn, by simp [hnu]⟩
      exact Option.isSome_iff_exists.mp hsome
    obtain ⟨m, hm⟩ := hfind
    have hmem1 : ∃ n1 ∈ graphAddEdge g a d0, n1.url = a := by
      have hurls := graphAddEdge_urls g a d0
      have : a ∈ (graphAddEdge g a d0).map Node.url := by
        rw [hurls]
        exact List.mem_map.mpr ⟨n, hn, hnu⟩
      rcases List.mem_map.mp this with ⟨n1, hn1, hn1u⟩
      exact ⟨n1, hn1, hn1u⟩
    rcases List.mem_cons.mp hd with he | ht
    · subst he
      have hd0 : d ∈ urlDependents (graphAddEdge g a d) a := by
        rw [urlDependents_addEdge_self g a d hm]
        exact addToSet_mem_self _ _
      exact mem_urlDependents_dependsOn_mono _ a t a d hd0
    · exact ih _ hmem1 d ht

theorem find?_append_right_none {α : Type} {p : α → Bool} {l1 : List α} (l2 : List α)
    (h : l1.find? p = none) : (l1 ++ l2).find? p = l2.find? p := by
  induction l1 with
  | nil => rfl
  | cons x t ih =>
    have hx : p x = false := by
      have := List.find?_eq_none.mp h x (List.mem_cons_self x t)
      exact Bool.of_not_eq_true this
    have ht : t.find? p = none := by
      rw [List.find?_eq_none]
      intro a ha
      exact List.find?_eq_none.mp h a (List.mem_cons_of_mem x ha)
    rw [List.cons_append, List.find?_cons_of_neg _ (by rw [hx]; exact Bool.false_ne_true)]
    exact ih ht

theorem getNode_of_found {g : List Node} {fileName : String} {n0 : Node}
    (h : g.find? (fun n => n.url == fileUrl (ensureUnixPath fileName)) = some n0) :
    getNode g fileName = (n0, g) := by
  unfold getNode
  dsimp only
  rw [h]

theorem getNode_of_none {g : List Node} {fileName : String}
    (h : g.find? (fun n => n.url == fileUrl (ensureUnixPath fileName)) = none) :
    getNode g fileName = ({ url := fileUrl (ensureUnixPath fileName) },
      g ++ [{ url := fileUrl (ensureUnixPath fileName) }]) := by
  unfold getNode
  dsimp only
  rw [h]

theorem getNode_url (g : List Node) (fileName : String) :
    (getNode g fileName).1.url = fileUrl (ensureUnixPath fileName) := by
  cases h : g.find? (fun n => n.url == fileUrl (ensureUnixPath fileName)) with
  | none => rw [getNode_of_none h]
  | some n0 =>
    rw [getNode_of_found h]
    exact (find?_url_spec2 h).2

theorem getNode_find (g : List Node) (fileName : String) :
    (getNode g fileName).2.find? (fun x => x.url == fileUrl (ensureUnixPath fileName)) =
      some (getNode g fileName).1 := by
  cases h : g.find? (fun n => n.url == fileUrl (ensureUnixPath fileName)) with
  | some n0 => rw [getNode_of_found h]; exact h
  | none =>
    rw [getNode_of_none h]
    dsimp only
    rw [find?_append_right_none _ h]
    exact List.find?_cons_of_pos _ (by simp)

theorem getNode_preserves_find (g : List Node) (fileName : String) {u : String} {n : Node}
    (h : g.find? (fun x => x.url == u) = some n) :
    (getNode g fileName).2.find? (fun x => x.url == u) = some n := by
  cases hf : g.find? (fun x => x.url == fileUrl (ensureUnixPath fileName)) with
  | some m => rw [getNode_of_found hf]; exact h
  | none =>
    rw [getNode_of_none hf]
    dsimp only
    exact find?_append_some _ h

theorem getNode_urls_nodup (g : List Node) (fileName : String)
    (hg : (g.map Node.url).Nodup) : ((getNode g fileName).2.map Node.url).Nodup := by
  cases hf : g.find? (fun x => x.url == fileUrl (ensureUnixPath fileName)) with
  | some m => rw [getNode_of_found hf]; exact hg
  | none =>
    rw [getNode_of_none hf]
    dsimp only
    rw [List.map_append]
    refine List.Nodup.append hg (by simp) ?_
    intro a ha hb
    simp only [List.map_cons, List.map_nil, List.mem_singleton] at hb
    rcases List.mem_map.mp ha with ⟨x, hx, hxu⟩
    have := List.find?_eq_none.mp hf x hx
    apply this
    show (x.url == fileUrl (ensureUnixPath fileName)) = true
    rw [hxu]
    simp [hb]

theorem getNode_urls_sub (g : List Node) (fileName : String) {w : String}
    (h : w ∈ g.map Node.url) : w ∈ (getNode g fileName).2.map Node.url := by
  cases hf : g.find? (fun x => x.url == fileUrl (ensureUnixPath fileName)) with
  | some m => rw [getNode_of_found hf]; exact h
  | none =>
    rw [getNode_of_none hf]
    dsimp only
    rw [List.map_append]
    exact List.mem_append_left _ h

theorem addDependee_char (g : List Node) (epUrl fileName : String) :
    addDependee g epUrl fileName =
      graphAddEdge (getNode g fileName).2 epUrl (getNode g fileName).1.url := rfl

theorem foldRefs_fst (refs : List String) :
    ∀ acc : List String × List Node,
      (refs.foldl (fun (acc : List String × List Node) rf =>
        (acc.1 ++ [(getNode acc.2 rf).1.url], (getNode acc.2 rf).2)) acc).1 =
        acc.1 ++ refs.map (fun rf => fileUrl (ensureUnixPath rf)) := by
  induction refs with
  | nil => intro acc; rw [List.map_nil, List.append_nil]; rfl
  | cons rf t ih =>
    intro acc
    rw [List.foldl_cons, ih, List.map_cons]
    dsimp only
    rw [getNode_url, List.append_assoc]
    rfl

theorem foldRefs_preserves_find (refs : List String) :
    ∀ (acc : List String × List Node) (u : String) (n : Node),
      acc.2.find? (fun x => x.url == u) = some n →
      (refs.foldl (fun (acc : List String × List Node) rf =>
        (acc.1 ++ [(getNode acc.2 rf).1.url], (getNode acc.2 rf).2)) acc).2.find?
        (fun x => x.url == u) = some n := by
  induction refs with
  | nil => intro acc u n h; exact h
  | cons rf t ih =>
    intro acc u n h
    rw [List.foldl_cons]
    exact ih _ u n (getNode_preserves_find acc.2 rf h)

theorem foldRefs_nodup (refs : List String) :
    ∀ acc : List String × List Node, ((acc.2.map Node.url).Nodup) →
      ((refs.foldl (fun (acc : List String × List Node) rf =>
        (acc.1 ++ [(getNode acc.2 rf).1.url], (getNode acc.2 rf).2)) acc).2.map Node.url).Nodup := by
  induction refs with
  | nil => intro acc h; exact h
  | cons rf t ih =>
    intro acc h
    rw [List.foldl_cons]
    exact ih _ (getNode_urls_nodup acc.2 rf h)

theorem addToSet_subset {s : List String} {x y : String} (h : x ∈ addToSet s y) :
    x ∈ s ∨ x = y := by
  unfold addToSet at h
  by_cases hc : s.contains y
  · rw [if_pos hc] at h; exact .inl h
  · rw [if_neg hc] at h
    rcases List.mem_append.mp h with h1 | h2
    · exact .inl h1
    · exact .inr (List.mem_singleton.mp h2)

theorem foldD_dependents_mono (depUrls : List String) (D : List String) (u x : String) :
    ∀ gacc : List Node, x ∈ urlDependents gacc u →
      x ∈ urlDependents (D.foldl
        (fun g' d => if jsEndsWith d ".ts" then graphDependsOn g' d depUrls else g')
        gacc) u := by
  induction D with
  | nil => intro gacc h; exact h
  | cons d0 t ih =>
    intro gacc h
    rw [List.foldl_cons]
    refine ih _ ?_
    by_cases hts : jsEndsWith d0 ".ts"
    · rw [if_pos hts]
      exact mem_urlDependents_dependsOn_mono gacc d0 depUrls u x h
    · rw [if_neg hts]
      exact h

theorem foldD_urls (depUrls : List String) (D : List String) :
    ∀ gacc : List Node,
      (D.foldl (fun g' d => if jsEndsWith d ".ts" then graphDependsOn g' d depUrls else g')
        gacc).map Node.url = gacc.map Node.url := by
  induction D with
  | nil => intro gacc; rfl
  | cons d0 t ih =>
    intro gacc
    rw [List.foldl_cons]
    by_cases hts : jsEndsWith d0 ".ts"
    · rw [if_pos hts, ih, graphDependsOn_urls]
    · rw [if_neg hts, ih]

theorem foldD_complete (depUrls : List String) (D : List String) :
    ∀ gacc : List Node, (∀ d ∈ D, ∃ m ∈ gacc, m.url = d) →
      ∀ d ∈ D, jsEndsWith d ".ts" = true → ∀ x ∈ depUrls,
        x ∈ urlDependents (D.foldl
          (fun g' d => if jsEndsWith d ".ts" then graphDependsOn g' d depUrls else g')
          gacc) d := by
  induction D with
  | nil => intro gacc _ d hd; cases hd
  | cons d0 t ih =>
    intro gacc hpres d hd hts x hx
    rw [List.foldl_cons]
    have hpres1 : ∀ e ∈ t, ∃ m ∈ (if jsEndsWith d0 ".ts" then graphDependsOn gacc d0 depUrls
        else gacc), m.url = e := by
      intro e he
      obtain ⟨m, hm, hmu⟩ := hpres e (List.mem_cons_of_mem d0 he)
      have hmem : e ∈ (if jsEndsWith d0 ".ts" then graphDependsOn gacc d0 depUrls
          else gacc).map Node.url := by
        by_cases hts0 : jsEndsWith d0 ".ts"
        · rw [if_pos hts0, graphDependsOn_urls]
          exact List.mem_map.mpr ⟨m, hm, hmu⟩
        · rw [if_neg hts0]
          exact List.mem_map.mpr ⟨m, hm, hmu⟩
      rcases List.mem_map.mp hmem with ⟨m1, hm1, hm1u⟩
      exact ⟨m1, hm1, hm1u⟩
    rcases List.mem_cons.mp hd with he | ht
    · subst he
      have hstep : x ∈ urlDependents (if jsEndsWith d ".ts" then graphDependsOn gacc d depUrls
          else gacc) d := by
        rw [if_pos hts]
        exact mem_dependsOn_self gacc d depUrls (hpres d (List.mem_cons_self d t)) x hx
      exact foldD_dependents_mono depUrls t d x _ hstep
    · exact ih _ hpres1 d ht hts x hx

theorem foldD_dependees_other (depUrls : List String) (D : List String) (u : String)
    (hu : u ∉ depUrls) :
    ∀ gacc : List Node,
      urlDependees (D.foldl
        (fun g' d => if jsEndsWith d ".ts" then graphDependsOn g' d depUrls else g')
        gacc) u = urlDependees gacc u := by
  induction D with
  | nil => intro gacc; rfl
  | cons d0 t ih =>
    intro gacc
    rw [List.foldl_cons, ih]
    by_cases hts : jsEndsWith d0 ".ts"
    · rw [if_pos hts, urlDependees_dependsOn_other gacc d0 depUrls u hu]
    · rw [if_neg hts]

theorem readResourceStylesheetGraph_edges (bundle : String → BundleResult)
    (g1 : List Node) (fileName : String)
    (hg1 : (g1.map Node.url).Nodup) {n1 : Node}
    (hn1 : g1.find? (fun x => x.url == fileUrl (ensureUnixPath fileName)) = some n1)
    (hdp : ∀ d ∈ n1.dependees, ∃ m ∈ g1, m.url = d) :
    (∀ r ∈ (bundle fileName).referencedFiles,
      fileUrl (ensureUnixPath r) ≠ fileUrl (ensureUnixPath fileName) →
      fileUrl (ensureUnixPath r) ∈
        urlDependents (readResourceStylesheetGraph bundle g1 fileName)
          (fileUrl (ensureUnixPath fileName))) ∧
    urlDependees (readResourceStylesheetGraph bundle g1 fileName)
      (fileUrl (ensureUnixPath fileName)) = n1.dependees ∧
    (∀ d ∈ n1.dependees, jsEndsWith d ".ts" = true →
      ∀ r ∈ (bundle fileName).referencedFiles,
        fileUrl (ensureUnixPath r) ≠ fileUrl (ensureUnixPath fileName) →
        fileUrl (ensureUnixPath r) ∈
          urlDependents (readResourceStylesheetGraph bundle g1 fileName) d) := by
  have hgn : getNode g1 fileName = (n1, g1) := getNode_of_found hn1
  have hn1u : n1.url = fileUrl (ensureUnixPath fileName) := (find?_url_spec2 hn1).2
  unfold readResourceStylesheetGraph
  rw [hgn]
  dsimp only
  have hfst := foldRefs_fst (bundle fileName).referencedFiles ([], g1)
  have hpf := foldRefs_preserves_find (bundle fileName).referencedFiles ([], g1)
    (fileUrl (ensureUnixPath fileName)) n1 (by dsimp only; exact hn1)
  have hnd2 := foldRefs_nodup (bundle fileName).referencedFiles ([], g1) hg1
  rw [hn1u]
  set F := (bundle fileName).referencedFiles.foldl
    (fun (acc : List String × List Node) rf =>
      (acc.1 ++ [(getNode acc.2 rf).1.url], (getNode acc.2 rf).2))
    (([], g1) : List String × List Node) with hF
  set depUrls := F.1.filter (fun v => v != fileUrl (ensureUnixPath fileName)) with hdep
  set G4 := graphDependsOn F.2 (fileUrl (ensureUnixPath fileName)) depUrls with hG4
  have hu_not : fileUrl (ensureUnixPath fileName) ∉ depUrls := by
    intro hmem
    rw [hdep] at hmem
    have hcond := (List.mem_filter.mp hmem).2
    simp at hcond
  have hpres_u : ∃ m ∈ F.2, m.url = fileUrl (ensureUnixPath fileName) :=
    ⟨n1, List.mem_of_find?_eq_some hpf, (find?_url_spec2 hpf).2⟩
  have hru_dep : ∀ r ∈ (bundle fileName).referencedFiles,
      fileUrl (ensureUnixPath r) ≠ fileUrl (ensureUnixPath fileName) →
      fileUrl (ensureUnixPath r) ∈ depUrls := by
    intro r hr hne
    rw [hdep]
    refine List.mem_filter.mpr ⟨?_, by simp [hne]⟩
    rw [hfst]
    exact List.mem_append_right _ (List.mem_map.mpr ⟨r, hr, rfl⟩)
  refine ⟨?_, ?_, ?_⟩
  · intro r hr hne
    refine foldD_dependents_mono depUrls n1.dependees (fileUrl (ensureUnixPath fileName))
      (fileUrl (ensureUnixPath r)) G4 ?_
    rw [hG4]
    exact mem_dependsOn_self F.2 (fileUrl (ensureUnixPath fileName)) depUrls hpres_u
      (fileUrl (ensureUnixPath r)) (hru_dep r hr hne)
  · have h1 := foldD_dependees_other depUrls n1.dependees
      (fileUrl (ensureUnixPath fileName)) hu_not G4
    have h2 : urlDependees G4 (fileUrl (ensureUnixPath fileName)) = n1.dependees := by
      rw [hG4]
      rw [urlDependees_dependsOn_other F.2 (fileUrl (ensureUnixPath fileName)) depUrls
        (fileUrl (ensureUnixPath fileName)) hu_not]
      unfold urlDependees
      rw [hpf]
    rw [h1, h2]
  · intro d hd hts r hr hne
    have hdpres : ∀ e ∈ n1.dependees, ∃ m ∈ G4, m.url = e := by
      intro e he
      obtain ⟨m, hm, hmu⟩ := hdp e he
      have hfm : g1.find? (fun x => x.url == e) = some m := find?_url_of_mem2 hg1 hm hmu
      have hfm2 : F.2.find? (fun x => x.url == e) = some m := by
        rw [hF]
        exact foldRefs_preserves_find _ (([], g1) : List String × List Node) e m
          (by dsimp only; exact hfm)
      have hmem2 : e ∈ G4.map Node.url := by
        rw [hG4, graphDependsOn_urls]
        exact List.mem_map.mpr ⟨m, List.mem_of_find?_eq_some hfm2, (find?_url_spec2 hfm2).2⟩
      rcases List.mem_map.mp hmem2 with ⟨m1, hm1, hm1u⟩
      exact ⟨m1, hm1, hm1u⟩
    exact foldD_complete depUrls n1.dependees G4 hdpres d hd hts
      (fileUrl (ensureUnixPath r)) (hru_dep r hr hne)

theorem getOrCreate_content_none (c : FileCache) (fileName : String)
    (hca : ∀ p ∈ c, p.1 = fileName → p.2.content = none) :
    (FileCache.getOrCreate c fileName).1.content = none := by
  unfold FileCache.getOrCreate
  cases hf : c.find? (fun p => p.1 == fileName) with
  | none => rfl
  | some q =>
    dsimp only
    have hq := List.find?_some hf
    exact hca q (List.mem_of_find?_eq_some hf) (beq_iff_eq.mp hq)

theorem readResource_stylesheet_result (host : HostOracle) (bundle : String → BundleResult)
    (epUrl : String) (g : List Node) (c : FileCache) (fileName : String)
    (hca : ∀ p ∈ c, p.1 = fileName → p.2.content = none)
    (hex : host.fileExists fileName = true)
    (htm : isTemplateExt (extname fileName) = false)
    (herr : (bundle fileName).errors = 0) :
    readResource host bundle epUrl g c fileName =
      .ok (some (bundle fileName).contents)
        (readResourceStylesheetGraph bundle (addDependee g epUrl fileName) fileName)
        (FileCache.getOrCreate c fileName).2 := by
  unfold readResource
  dsimp only
  rw [getOrCreate_content_none c fileName hca]
  dsimp only
  rw [hex]
  rw [if_neg (show ¬ (true = false) by simp)]
  rw [if_neg (show ¬ (isTemplateExt (extname fileName) = true) by
    rw [htm]; exact Bool.false_ne_true)]
  rw [herr]
  rw [if_neg (show ¬ ((0 : Nat) > 0) by simp)]

/-- Claim C9: after readResource completes on an uncached stylesheet (a
file whose extension is not html, htm or svg), the stylesheet node depends
on every bundler-reported referenced file other than itself, and every
dependee of the stylesheet whose url ends in .ts also depends on each of
those referenced files. -/
theorem readResource_stylesheet_registers_edges
    (host : HostOracle) (bundle : String → BundleResult) (epUrl : String)
    (g : List Node) (c : FileCache) (fileName : String)
    (hg : (g.map Node.url).Nodup)
    (hclosure : ∀ n ∈ g, ∀ d ∈ n.dependees, ∃ m ∈ g, m.url = d)
    (hep : ∃ e ∈ g, e.url = epUrl)
    (hca : ∀ p ∈ c, p.1 = fileName → p.2.content = none)
    (hex : host.fileExists fileName = true)
    (htm : isTemplateExt (extname fileName) = false)
    (herr : (bundle fileName).errors = 0) :
    ∃ gf cf, readResource host bundle epUrl g c fileName =
        .ok (some (bundle fileName).contents) gf cf ∧
      (∀ r ∈ (bundle fileName).referencedFiles,
        fileUrl (ensureUnixPath r) ≠ fileUrl (ensureUnixPath fileName) →
        fileUrl (ensureUnixPath r) ∈ urlDependents gf (fileUrl (ensureUnixPath fileName))) ∧
      (∀ d ∈ urlDependees gf (fileUrl (ensureUnixPath fileName)),
        jsEndsWith d ".ts" = true →
        ∀ r ∈ (bundle fileName).referencedFiles,
          fileUrl (ensureUnixPath r) ≠ fileUrl (ensureUnixPath fileName) →
          fileUrl (ensureUnixPath r) ∈ urlDependents gf d) := by
  have hchar := addDependee_char g epUrl fileName
  have hg1nodup : ((addDependee g epUrl fileName).map Node.url).Nodup := by
    rw [hchar, graphAddEdge_urls]
    exact getNode_urls_nodup g fileName hg
  have hfind1 : (addDependee g epUrl fileName).find?
      (fun x => x.url == fileUrl (ensureUnixPath fileName)) =
      some (edgeUpd epUrl (getNode g fileName).1.url (getNode g fileName).1) := by
    rw [hchar, graphAddEdge_find?, getNode_find, Option.map_some']
  have hn1dep : (edgeUpd epUrl (getNode g fileName).1.url (getNode g fileName).1).dependees =
      addToSet (getNode g fileName).1.dependees epUrl :=
    edgeUpd_dependees_self epUrl ((getNode g fileName).1.url) (getNode g fileName).1 rfl
  have hdp : ∀ d ∈ (edgeUpd epUrl (getNode g fileName).1.url
      (getNode g fileName).1).dependees,
      ∃ m ∈ addDependee g epUrl fileName, m.url = d := by
    intro d hd
    rw [hn1dep] at hd
    have hdurls : d ∈ g.map Node.url := by
      rcases addToSet_subset hd with hX | hE
      · cases hf0 : g.find? (fun n => n.url == fileUrl (ensureUnixPath fileName)) with
        | some m0 =>
          rw [getNode_of_found hf0] at hX
          obtain ⟨m, hm, hmu⟩ := hclosure m0 (find?_url_spec2 hf0).1 d hX
          exact List.mem_map.mpr ⟨m, hm, hmu⟩
        | none =>
          rw [getNode_of_none hf0] at hX
          simp at hX
      · rw [hE]
        obtain ⟨e, he, heu⟩ := hep
        exact List.mem_map.mpr ⟨e, he, heu⟩
    have hmem1 : d ∈ (addDependee g epUrl fileName).map Node.url := by
      rw [hchar, graphAddEdge_urls]
      exact getNode_urls_sub g fileName hdurls
    rcases List.mem_map.mp hmem1 with ⟨m1, hm1, hm1u⟩
    exact ⟨m1, hm1, hm1u⟩
  have hedges := readResourceStylesheetGraph_edges bundle (addDependee g epUrl fileName)
    fileName hg1nodup hfind1 hdp
  have hres := readResource_stylesheet_result host bundle epUrl g c fileName hca hex htm herr
  refine ⟨_, _, hres, hedges.1, ?_⟩
  intro d hd hts r hr hne
  rw [hedges.2.1] at hd
  exact hedges.2.2 d hd hts r hr hne

/-- Witness for C9 at the fixture host, bundler and graph: reading the
stylesheet registers the partial as a dependency of the stylesheet and of
its ts dependee. -/
theorem readResource_stylesheet_registers_edges_witness :
    (gRRW.map Node.url).Nodup ∧
    (∃ gf cf, readResource hostW bundleW "ng://e" gRRW [] "s.scss" =
        .ok (some (bundleW "s.scss").contents) gf cf ∧
      (∀ r ∈ (bundleW "s.scss").referencedFiles,
        fileUrl (ensureUnixPath r) ≠ fileUrl (ensureUnixPath "s.scss") →
        fileUrl (ensureUnixPath r) ∈ urlDependents gf (fileUrl (ensureUnixPath "s.scss"))) ∧
      (∀ d ∈ urlDependees gf (fileUrl (ensureUnixPath "s.scss")),
        jsEndsWith d ".ts" = true →
        ∀ r ∈ (bundleW "s.scss").referencedFiles,
          fileUrl (ensureUnixPath r) ≠ fileUrl (ensureUnixPath "s.scss") →
          fileUrl (ensureUnixPath r) ∈ urlDependents gf d)) :=
  ⟨by decide, readResource_stylesheet_registers_edges hostW bundleW "ng://e" gRRW [] "s.scss"
    (by decide) (by decide) (by decide) (by decide) (by decide) (by decide) (by decide)⟩

end NgPackagr
